import Mathlib

/-!
Verification of the `rust_shorted_path` repository: a shallow embedding of
the Dijkstra shortest-path engine (`src/algorithms/dijkstra.rs`) and the
graph loader (`src/graph/graph_loader.rs`), together with theorems settling
the specification's claims.

Modelling conventions:
* `usize` is modelled by `Nat`; `std::usize::MAX` is the 64-bit sentinel
  `2 ^ 64 - 1` (the code imports `std::usize::MAX` and the spec fixes the
  width as the machine word).  The one arithmetic operation of the engine,
  the relaxation sum `distances[&closest_node] + edge.weight`, is `usize`
  addition: a release build wraps it modulo `2 ^ 64`, which is what
  `usizeAdd` below models; a debug build aborts on overflow at that same
  program point.  Runs in which no relaxation sum overflows behave
  identically in both builds, and the optimality theorems below restrict to
  such runs through an explicit no-overflow hypothesis
  (`2 * weightSum g < U64`); theorems without that hypothesis are
  arithmetic-independent and hold of the wrapping semantics as modelled.
* `HashMap<usize, usize>` is modelled by an association list with
  cons-insertion and first-match lookup, which realises the observable
  insert/overwrite/get behaviour of the Rust map (the engine never iterates
  over a map, only over the `nodes` vector and the edge list).
* A panicking operation (`unwrap` on a missing key, `HashMap` indexing with
  a missing key) is modelled by a dedicated error outcome; a loop that the
  Rust program would never leave is modelled by fuel exhaustion, reported
  as a dedicated `diverge` outcome.
-/

namespace RustShortedPath

/-- `Node` from `src/graph/node.rs`: a node is a bare identifier. -/
structure Node where
  id : Nat
deriving DecidableEq, Repr

/-- `Edge` from `src/graph/edge.rs`: two endpoint identifiers and a weight. -/
structure Edge where
  node1 : Nat
  node2 : Nat
  weight : Nat
deriving DecidableEq, Repr

/-- `Graph` from `src/graph/mod.rs`: a list of nodes and a list of edges. -/
structure Graph where
  nodes : List Node
  edges : List Edge
deriving DecidableEq, Repr

/-- `std::usize::MAX` on the 64-bit target. -/
def MAX : Nat := 2 ^ 64 - 1

/-- The identifiers of the graph's nodes, in order. -/
def nodeIds (g : Graph) : List Nat := g.nodes.map Node.id

/-- The data-model invariant of §3 of the spec: every edge's endpoints
reference identifiers present in the node collection. -/
def GraphWF (g : Graph) : Prop :=
  ∀ e ∈ g.edges, e.node1 ∈ nodeIds g ∧ e.node2 ∈ nodeIds g

instance : DecidablePred GraphWF := fun g =>
  inferInstanceAs (Decidable (∀ e ∈ g.edges, e.node1 ∈ nodeIds g ∧ e.node2 ∈ nodeIds g))

/-- `e` is an (undirected) edge between `a` and `b`. -/
def joins (e : Edge) (a b : Nat) : Prop :=
  (e.node1 = a ∧ e.node2 = b) ∨ (e.node1 = b ∧ e.node2 = a)

instance : ∀ e a b, Decidable (joins e a b) := fun e a b =>
  inferInstanceAs (Decidable ((e.node1 = a ∧ e.node2 = b) ∨ (e.node1 = b ∧ e.node2 = a)))

/-- Some edge of `g` joins `a` and `b` (in either direction). -/
def hasEdge (g : Graph) (a b : Nat) : Prop := ∃ e ∈ g.edges, joins e a b

instance : ∀ g a b, Decidable (hasEdge g a b) := fun g a b =>
  inferInstanceAs (Decidable (∃ e ∈ g.edges, joins e a b))

/-- `WalkCost g p w`: the node sequence `p` is a path in `g` (consecutive
elements joined by chosen edges of `g`) of total edge weight `w`. -/
inductive WalkCost (g : Graph) : List Nat → Nat → Prop where
  | single (a : Nat) : WalkCost g [a] 0
  | cons (a b : Nat) (p : List Nat) (w : Nat) (e : Edge) :
      e ∈ g.edges → joins e a b → WalkCost g (b :: p) w →
      WalkCost g (a :: b :: p) (e.weight + w)

/-- There is a path in `g` from `a` to `b` of total weight `w`. -/
def WalkW (g : Graph) (a b w : Nat) : Prop :=
  ∃ p, WalkCost g p w ∧ p.head? = some a ∧ p.getLast? = some b

/-- `b` is reachable from `a` in `g`. -/
def Reachable (g : Graph) (a b : Nat) : Prop := ∃ w, WalkW g a b w

/-- The set of total weights of paths from `a` to `b` in `g`. -/
def walkSet (g : Graph) (a b : Nat) : Set Nat := {w | WalkW g a b w}

/-! ## The `HashMap<usize, usize>` model -/

/-- Association-list model of `HashMap<usize, usize>`. -/
abbrev HMap := List (Nat × Nat)

/-- `HashMap::get`: first match wins (the most recent insertion). -/
def hmGet : HMap → Nat → Option Nat
  | [], _ => none
  | (k', v) :: m, k => if k = k' then some v else hmGet m k

/-- `HashMap::insert`: cons a binding; with first-match lookup this
overwrites any earlier binding for the same key. -/
def hmInsert (m : HMap) (k v : Nat) : HMap := (k, v) :: m

theorem hmGet_insert_self (m : HMap) (k v : Nat) : hmGet (hmInsert m k v) k = some v := by
  simp [hmInsert, hmGet]

theorem hmGet_insert_ne (m : HMap) (k v k' : Nat) (h : k' ≠ k) :
    hmGet (hmInsert m k v) k' = hmGet m k' := by
  simp [hmInsert, hmGet, h]

/-! ## The Dijkstra engine (`Dijkstra::find_shortest_path`) -/

/-- The initial distance table before the `start` override: every node id of
the graph is bound to `MAX` (`distances.insert(node.id, MAX)`). -/
def initDistAux : List Node → HMap
  | [] => []
  | n :: ns => hmInsert (initDistAux ns) n.id MAX

/-- The initial distance table: all node ids at `MAX`, then
`distances.insert(start, 0)`. -/
def initDist (g : Graph) (start : Nat) : HMap :=
  hmInsert (initDistAux g.nodes) start 0

/-- The initial unvisited list: `nodes.push(node.id)` for each graph node. -/
def initNodes (g : Graph) : List Nat := g.nodes.map Node.id

/-- The lookups `distances.get(n).unwrap()` performed by the minimum scan,
in iteration order; `none` models the panic of `unwrap` on a missing key. -/
def scanPairs (dist : HMap) : List Nat → Option (List (Nat × Nat))
  | [] => some []
  | n :: ns =>
    match hmGet dist n with
    | none => none
    | some d => (scanPairs dist ns).map (fun l => (n, d) :: l)

/-- `Iterator::min_by_key` on the second component: the first minimum is
kept (a later element replaces the accumulator only when strictly smaller). -/
def minBySnd : List (Nat × Nat) → Option (Nat × Nat)
  | [] => none
  | p :: ps => some (ps.foldl (fun acc q => if q.2 < acc.2 then q else acc) p)

/-- The head of the main loop:
`nodes.iter().map(|n| (*n, *distances.get(n).unwrap())).min_by_key(...)`.
Outer `none` models a panic, inner `none` an exhausted unvisited list. -/
def minScan (dist : HMap) (nodes : List Nat) : Option (Option (Nat × Nat)) :=
  (scanPairs dist nodes).map minBySnd

/-- The neighbor determination of the relaxation loop: `Some(edge.node2)`
when `edge.node1 == closest_node`, `Some(edge.node1)` when
`edge.node2 == closest_node`, otherwise `continue` (`none`). -/
def edgeNeighbor (closest : Nat) (e : Edge) : Option Nat :=
  if e.node1 = closest then some e.node2
  else if e.node2 = closest then some e.node1
  else none

/-- The modulus of 64-bit `usize` arithmetic. -/
def U64 : Nat := 2 ^ 64

/-- `usize` addition as compiled in a release build: it wraps modulo
`2 ^ 64`.  A debug build aborts the process on overflow at the same
program point; on inputs where the sum stays below `2 ^ 64` the two builds
agree with plain addition. -/
def usizeAdd (a b : Nat) : Nat := (a + b) % U64

/-- The total weight of the graph's edge list; the no-overflow hypothesis
`2 * weightSum g < U64` of the optimality theorems below guarantees that no
relaxation sum can wrap. -/
def weightSum (g : Graph) : Nat := (g.edges.map Edge.weight).sum

/-- The relaxation loop over the edge list for the freshly settled node
`closest`; `none` models the panic of `distances[&k]` on a missing key.
For each edge touching `closest` the candidate distance
`distances[&closest] + edge.weight` — a `usize` sum, hence wrapping — is
compared with `distances[&neighbor]` and both tables are updated on strict
improvement. -/
def relaxEdges (closest : Nat) : List Edge → HMap → HMap → Option (HMap × HMap)
  | [], dist, prev => some (dist, prev)
  | e :: es, dist, prev =>
    match edgeNeighbor closest e with
    | none => relaxEdges closest es dist prev
    | some neighbor =>
      match hmGet dist closest with
      | none => none
      | some dc =>
        match hmGet dist neighbor with
        | none => none
        | some dn =>
          if usizeAdd dc e.weight < dn then
            relaxEdges closest es (hmInsert dist neighbor (usizeAdd dc e.weight))
              (hmInsert prev neighbor closest)
          else relaxEdges closest es dist prev

/-- Outcome of the main loop. `panic` models a `HashMap` lookup failure;
`fuelOut` models exhaustion of the structural-recursion fuel (shown below to
be unreachable with the fuel chosen in `find_shortest_path`). -/
inductive LoopResult where
  | ok (dist prev : HMap) (nodes : List Nat)
  | panic
  | fuelOut
deriving DecidableEq, Repr

/-- The main `while let` loop of `find_shortest_path`: scan for the closest
unvisited node, stop on the end node or an infinite distance, otherwise
retain-remove it and relax its edges. -/
def loopGo (g : Graph) (endId : Nat) : Nat → HMap → HMap → List Nat → LoopResult
  | 0, _, _, _ => .fuelOut
  | fuel + 1, dist, prev, nodes =>
    match minScan dist nodes with
    | none => .panic
    | some none => .ok dist prev nodes
    | some (some (closest, _)) =>
      if closest = endId then .ok dist prev nodes
      else
        match hmGet dist closest with
        | none => .panic
        | some dc =>
          if dc = MAX then .ok dist prev nodes
          else
            match relaxEdges closest g.edges dist prev with
            | none => .panic
            | some (dist', prev') =>
              loopGo g endId fuel dist' prev' (nodes.filter (fun n => n != closest))

/-- The backward walk of the path-reconstruction phase:
`while let Some(prev_node) = previous.get(&current)`; fuel exhaustion
(`none`) models an infinite walk through a cyclic predecessor map. -/
def buildPath : Nat → HMap → Nat → List Nat → Option (List Nat)
  | 0, _, _, _ => none
  | fuel + 1, prev, current, path =>
    match hmGet prev current with
    | some p => buildPath fuel prev p (path ++ [current])
    | none => some (path ++ [current])

/-- Observable outcome of `find_shortest_path`: a normal return, a panic, or
divergence (an infinite backward walk). -/
inductive RunResult where
  | ok (res : Option (List Nat))
  | panic
  | diverge
deriving DecidableEq, Repr

/-- `Dijkstra::find_shortest_path` from `src/algorithms/dijkstra.rs`.
The loop fuel `|nodes| + 1` strictly dominates the loop's iteration count
(proved below), so `fuelOut` is unreachable.  The reconstruction fuel
`|nodes| + 2` dominates the backward walk whenever the predecessor map is
rooted — in particular in every non-overflowing run; when it runs out the
predecessor chain is longer than the key count, hence cyclic, and the
`while let` walk of the source never terminates, which is what `diverge`
reports. -/
def find_shortest_path (g : Graph) (start endId : Nat) : RunResult :=
  match loopGo g endId ((initNodes g).length + 1) (initDist g start) [] (initNodes g) with
  | .panic => .panic
  | .fuelOut => .diverge
  | .ok _ prev _ =>
    match buildPath (g.nodes.length + 2) prev endId [] with
    | none => .diverge
    | some revPath =>
      match revPath.reverse with
      | [] => .ok none
      | h :: t => if h = start then .ok (some (h :: t)) else .ok none

/-! ## The graph loader (`load_from_file` in `src/graph/graph_loader.rs`)

A file is modelled as its list of lines, each line a list of characters
(the loader reads lines through `BufRead::lines`). -/

/-- One line of the input file. -/
abbrev Line := List Char

/-- Helper for `splitWs`: `acc` is the current token, reversed. -/
def splitWsAux : Line → Line → List Line
  | [], acc => if acc.isEmpty then [] else [acc.reverse]
  | c :: cs, acc =>
    if c.isWhitespace then
      if acc.isEmpty then splitWsAux cs []
      else acc.reverse :: splitWsAux cs []
    else splitWsAux cs (c :: acc)

/-- `str::split_whitespace`: split on whitespace, dropping empty tokens. -/
def splitWs (l : Line) : List Line := splitWsAux l []

/-- `usize::from_str`: an optional leading `+`, then one or more ASCII
digits, and the value must fit in `usize`. -/
def parseUsize (s : Line) : Option Nat :=
  let s' := match s with
            | '+' :: rest => rest
            | _ => s
  if s'.isEmpty then none
  else if s'.all (fun c => c.isDigit) then
    let v := s'.foldl (fun acc c => acc * 10 + (c.toNat - 48)) 0
    if v ≤ MAX then some v else none
  else none

/-- Parse every whitespace-separated token of the `ShortestPath` line;
`none` models the panic of the `.unwrap()` the code applies to each token. -/
def parseUsizeAll : List Line → Option (List Nat)
  | [] => some []
  | t :: ts =>
    match parseUsize t with
    | none => none
    | some v => (parseUsizeAll ts).map (fun l => v :: l)

/-- The section the loader is currently reading. -/
inductive FileSection where
  | nodes
  | edges
  | shortestPath
deriving DecidableEq, Repr

/-- Outcome of `load_from_file`: a graph plus the expected-path list, an
`io::Error` with `ErrorKind::InvalidData`, or a panic (the `.unwrap()` in
the `ShortestPath` branch). -/
inductive LoadResult where
  | ok (g : Graph) (shortestPath : List Nat)
  | err (msg : String)
  | panic
deriving DecidableEq, Repr

/-- The line-processing loop of `load_from_file`. -/
def loadLines : List Line → Option FileSection → List Node → List Edge → List Nat → LoadResult
  | [], _, nodes, edges, sp => .ok ⟨nodes, edges⟩ sp
  | line :: rest, sect, nodes, edges, sp =>
    if line.head? = some '#' then
      if line = "# Nodes".toList then loadLines rest (some .nodes) nodes edges sp
      else if line = "# Edges".toList then loadLines rest (some .edges) nodes edges sp
      else if line = "# ShortestPath".toList then
        loadLines rest (some .shortestPath) nodes edges sp
      else .err "Invalid section"
    else
      match sect with
      | none => loadLines rest none nodes edges sp
      | some .nodes =>
        match parseUsize line with
        | none => .err "Invalid node id"
        | some id => loadLines rest sect (nodes ++ [⟨id⟩]) edges sp
      | some .edges =>
        match splitWs line with
        | [p1, p2, p3] =>
          match parseUsize p1 with
          | none => .err "Invalid node id"
          | some n1 =>
            match parseUsize p2 with
            | none => .err "Invalid node id"
            | some n2 =>
              match parseUsize p3 with
              | none => .err "Invalid weight"
              | some w => loadLines rest sect nodes (edges ++ [⟨n1, n2, w⟩]) sp
        | _ => .err "Invalid edge data"
      | some .shortestPath =>
        match parseUsizeAll (splitWs line) with
        | none => .panic
        | some l => loadLines rest sect nodes edges l

/-- `load_from_file`, with the file contents given as its list of lines. -/
def load_from_file (lines : List Line) : LoadResult :=
  loadLines lines none [] [] []

/-! ## Basic lemmas about the engine's data structures -/

theorem MAX_pos : 0 < MAX := by decide

theorem hmGet_initDistAux (ns : List Node) (k : Nat) :
    hmGet (initDistAux ns) k = if k ∈ ns.map Node.id then some MAX else none := by
  induction ns with
  | nil => simp [initDistAux, hmGet]
  | cons n ns ih =>
    by_cases h : k = n.id
    · simp [initDistAux, hmInsert, hmGet, h]
    · simp only [initDistAux, hmInsert, hmGet, if_neg h, ih, List.map_cons, List.mem_cons]
      simp [h]

theorem hmGet_initDist (g : Graph) (start k : Nat) :
    hmGet (initDist g start) k =
      if k = start then some 0 else if k ∈ nodeIds g then some MAX else none := by
  by_cases h : k = start
  · simp [initDist, hmInsert, hmGet, h]
  · simp [initDist, hmInsert, hmGet, h, hmGet_initDistAux, nodeIds]

theorem scanPairs_some (dist : HMap) (nodes : List Nat)
    (h : ∀ n ∈ nodes, (hmGet dist n).isSome) : ∃ l, scanPairs dist nodes = some l := by
  induction nodes with
  | nil => exact ⟨[], rfl⟩
  | cons n ns ih =>
    obtain ⟨d, hd⟩ := Option.isSome_iff_exists.mp (h n (by simp))
    obtain ⟨l, hl⟩ := ih (fun m hm => h m (by simp [hm]))
    exact ⟨(n, d) :: l, by simp [scanPairs, hd, hl]⟩

theorem scanPairs_mem {dist : HMap} {nodes : List Nat} {l : List (Nat × Nat)}
    (h : scanPairs dist nodes = some l) :
    ∀ p ∈ l, p.1 ∈ nodes ∧ hmGet dist p.1 = some p.2 := by
  induction nodes generalizing l with
  | nil =>
    simp only [scanPairs, Option.some.injEq] at h
    subst h; simp
  | cons n ns ih =>
    simp only [scanPairs] at h
    cases hd : hmGet dist n with
    | none => rw [hd] at h; exact absurd h (by simp)
    | some d =>
      rw [hd] at h
      cases hl : scanPairs dist ns with
      | none => rw [hl] at h; exact absurd h (by simp)
      | some l' =>
        rw [hl] at h
        simp only [Option.map_some', Option.some.injEq] at h
        subst h
        intro p hp
        rcases List.mem_cons.mp hp with rfl | hp'
        · exact ⟨by simp, hd⟩
        · obtain ⟨h1, h2⟩ := ih hl p hp'
          exact ⟨by simp [h1], h2⟩

theorem scanPairs_forall {dist : HMap} {nodes : List Nat} {l : List (Nat × Nat)}
    (h : scanPairs dist nodes = some l) :
    ∀ n ∈ nodes, ∃ d, hmGet dist n = some d ∧ (n, d) ∈ l := by
  induction nodes generalizing l with
  | nil => simp
  | cons n ns ih =>
    simp only [scanPairs] at h
    cases hd : hmGet dist n with
    | none => rw [hd] at h; exact absurd h (by simp)
    | some d =>
      rw [hd] at h
      cases hl : scanPairs dist ns with
      | none => rw [hl] at h; exact absurd h (by simp)
      | some l' =>
        rw [hl] at h
        simp only [Option.map_some', Option.some.injEq] at h
        subst h
        intro m hm
        rcases List.mem_cons.mp hm with rfl | hm'
        · exact ⟨d, hd, by simp⟩
        · obtain ⟨dm, h1, h2⟩ := ih hl m hm'
          exact ⟨dm, h1, by simp [h2]⟩

theorem scanPairs_nil {dist : HMap} {nodes : List Nat}
    (h : scanPairs dist nodes = some []) : nodes = [] := by
  cases nodes with
  | nil => rfl
  | cons n ns =>
    simp only [scanPairs] at h
    cases hd : hmGet dist n with
    | none => rw [hd] at h; exact absurd h (by simp)
    | some d =>
      rw [hd] at h
      cases hl : scanPairs dist ns with
      | none => rw [hl] at h; exact absurd h (by simp)
      | some l' => rw [hl] at h; simp at h

theorem foldl_minBy_mem (ps : List (Nat × Nat)) (p : Nat × Nat) :
    ps.foldl (fun acc q => if q.2 < acc.2 then q else acc) p ∈ p :: ps := by
  induction ps generalizing p with
  | nil => simp
  | cons q qs ih =>
    simp only [List.foldl_cons]
    rcases List.mem_cons.mp (ih (if q.2 < p.2 then q else p)) with h | h
    · rw [h]
      by_cases hq : q.2 < p.2 <;> simp [hq]
    · simp [h]

theorem foldl_minBy_le (ps : List (Nat × Nat)) (p : Nat × Nat) :
    (ps.foldl (fun acc q => if q.2 < acc.2 then q else acc) p).2 ≤ p.2 ∧
      ∀ q ∈ ps, (ps.foldl (fun acc q => if q.2 < acc.2 then q else acc) p).2 ≤ q.2 := by
  induction ps generalizing p with
  | nil => simp
  | cons q qs ih =>
    simp only [List.foldl_cons]
    obtain ⟨ih1, ih2⟩ := ih (if q.2 < p.2 then q else p)
    constructor
    · refine le_trans ih1 ?_
      by_cases hq : q.2 < p.2 <;> simp [hq]
      omega
    · intro r hr
      rcases List.mem_cons.mp hr with rfl | hr'
      · refine le_trans ih1 ?_
        by_cases hq : r.2 < p.2 <;> simp [hq]
        omega
      · exact ih2 r hr'

theorem minScan_some_some {dist : HMap} {nodes : List Nat} {c d : Nat}
    (h : minScan dist nodes = some (some (c, d))) :
    c ∈ nodes ∧ hmGet dist c = some d ∧
      ∀ n ∈ nodes, ∀ dn, hmGet dist n = some dn → d ≤ dn := by
  cases hl : scanPairs dist nodes with
  | none => rw [minScan, hl] at h; exact absurd h (by simp)
  | some l =>
    rw [minScan, hl] at h
    simp only [Option.map_some', Option.some.injEq] at h
    cases l with
    | nil => simp [minBySnd] at h
    | cons p ps =>
      simp only [minBySnd, Option.some.injEq] at h
      have hmem := foldl_minBy_mem ps p
      rw [h] at hmem
      obtain ⟨h1, h2⟩ := scanPairs_mem hl (c, d) hmem
      refine ⟨h1, h2, ?_⟩
      intro n hn dn hdn
      obtain ⟨dn', hdn', hmem'⟩ := scanPairs_forall hl n hn
      rw [hdn] at hdn'
      obtain rfl : dn = dn' := by injection hdn'
      obtain ⟨hle1, hle2⟩ := foldl_minBy_le ps p
      rw [h] at hle1 hle2
      rcases List.mem_cons.mp hmem' with heq | hmem''
      · rw [show dn = p.2 from congrArg Prod.snd heq.symm ▸ rfl]
        exact heq ▸ hle1
      · exact hle2 _ hmem''

theorem minScan_some_none {dist : HMap} {nodes : List Nat}
    (h : minScan dist nodes = some none) : nodes = [] := by
  cases hl : scanPairs dist nodes with
  | none => rw [minScan, hl] at h; exact absurd h (by simp)
  | some l =>
    rw [minScan, hl] at h
    simp only [Option.map_some', Option.some.injEq] at h
    cases l with
    | nil => exact scanPairs_nil hl
    | cons p ps => simp [minBySnd] at h

theorem minScan_ne_none {dist : HMap} {nodes : List Nat}
    (h : ∀ n ∈ nodes, (hmGet dist n).isSome) : minScan dist nodes ≠ none := by
  obtain ⟨l, hl⟩ := scanPairs_some dist nodes h
  simp [minScan, hl]

/-! ## Basic lemmas about walks -/

theorem WalkCost.ne_nil {g : Graph} {p : List Nat} {w : Nat} (h : WalkCost g p w) :
    p ≠ [] := by
  cases h <;> simp

theorem walkCost_snoc {g : Graph} {p : List Nat} {w : Nat} {c n : Nat} {e : Edge}
    (h : WalkCost g p w) (hl : p.getLast? = some c)
    (he : e ∈ g.edges) (hj : joins e c n) : WalkCost g (p ++ [n]) (w + e.weight) := by
  induction h with
  | single a =>
    simp only [List.getLast?_singleton, Option.some.injEq] at hl
    subst hl
    have := WalkCost.cons a n [] 0 e he hj (WalkCost.single n)
    simpa [Nat.add_comm] using this
  | cons a b p' w' e' he' hj' hw ih =>
    rw [List.getLast?_cons_cons] at hl
    have := WalkCost.cons a b (p' ++ [n]) (w' + e.weight) e' he' hj' (ih hl)
    simpa [Nat.add_assoc] using this

theorem walkW_refl (g : Graph) (a : Nat) : WalkW g a a 0 :=
  ⟨[a], WalkCost.single a, rfl, rfl⟩

theorem walkW_snoc {g : Graph} {s a b w : Nat} {e : Edge}
    (h : WalkW g s a w) (he : e ∈ g.edges) (hj : joins e a b) :
    WalkW g s b (w + e.weight) := by
  obtain ⟨p, hp, hh, hl⟩ := h
  refine ⟨p ++ [b], walkCost_snoc hp hl he hj, ?_, by simp⟩
  cases p with
  | nil => exact absurd rfl hp.ne_nil
  | cons x xs => simpa using hh

theorem walkCost_chain {g : Graph} {p : List Nat} {w : Nat} (h : WalkCost g p w) :
    List.Chain' (hasEdge g) p := by
  induction h with
  | single a => simp
  | cons a b p' w' e he hj hw ih => exact List.Chain'.cons ⟨e, he, hj⟩ ih

theorem hasEdge_chain_walk {g : Graph} {p : List Nat} (hne : p ≠ [])
    (h : List.Chain' (hasEdge g) p) : ∃ w, WalkCost g p w := by
  induction p with
  | nil => exact absurd rfl hne
  | cons a p ih =>
    cases p with
    | nil => exact ⟨0, WalkCost.single a⟩
    | cons b q =>
      obtain ⟨hab, hrest⟩ := List.chain'_cons.mp h
      obtain ⟨w, hw⟩ := ih (by simp) hrest
      obtain ⟨e, he, hj⟩ := hab
      exact ⟨e.weight + w, WalkCost.cons a b q w e he hj hw⟩

theorem head?_append_left {α : Type} {xs : List α} (ys : List α) (h : xs ≠ []) :
    (xs ++ ys).head? = xs.head? := by
  cases xs with
  | nil => exact absurd rfl h
  | cons a l => rfl

theorem hasEdge_symm {g : Graph} {a b : Nat} (h : hasEdge g a b) : hasEdge g b a := by
  obtain ⟨e, he, hj⟩ := h
  exact ⟨e, he, Or.symm hj⟩

theorem mem_dropLast_or_getLast {α : Type} : ∀ {q : List α} {x t : α},
    x ∈ q → q.getLast? = some t → x ∈ q.dropLast ∨ x = t := by
  intro q
  induction q with
  | nil =>
    intro x t hx _
    simp at hx
  | cons a q ih =>
    intro x t hx hl
    cases q with
    | nil =>
      simp only [List.mem_singleton] at hx
      simp only [List.getLast?_singleton, Option.some.injEq] at hl
      exact Or.inr (hx.trans hl)
    | cons b q' =>
      rw [List.getLast?_cons_cons] at hl
      rcases List.mem_cons.mp hx with rfl | hx'
      · exact Or.inl (by simp)
      · rcases ih hx' hl with h | h
        · refine Or.inl ?_
          have hd : (a :: b :: q').dropLast = a :: (b :: q').dropLast := rfl
          rw [hd]
          exact List.mem_cons_of_mem a h
        · exact Or.inr h

/-! ## Weight bounds for duplicate-free paths

A path that repeats no node uses pairwise distinct edge values, so its
total weight is bounded by `weightSum`; this is what makes the no-overflow
hypothesis `2 * weightSum g < U64` propagate through the engine. -/

theorem sum_mem_le {l : List Nat} {x : Nat} (h : x ∈ l) : x ≤ l.sum := by
  induction l with
  | nil => simp at h
  | cons a t ih =>
    rcases List.mem_cons.mp h with rfl | h'
    · simp
    · have := ih h'
      simp only [List.sum_cons]
      omega

theorem weight_le_weightSum {g : Graph} {e : Edge} (he : e ∈ g.edges) :
    e.weight ≤ weightSum g :=
  sum_mem_le (List.mem_map_of_mem Edge.weight he)

theorem nodup_subset_weightSum : ∀ used l : List Edge, used.Nodup →
    (∀ e ∈ used, e ∈ l) → (used.map Edge.weight).sum ≤ (l.map Edge.weight).sum := by
  intro used
  induction used with
  | nil =>
    intro l _ _
    simp
  | cons e rest ih =>
    intro l hnd hsub
    have hel : e ∈ l := hsub e (by simp)
    have hperm : l.Perm (e :: l.erase e) := List.perm_cons_erase hel
    have hsum : (l.map Edge.weight).sum = e.weight + ((l.erase e).map Edge.weight).sum := by
      rw [List.Perm.sum_eq (List.Perm.map Edge.weight hperm)]
      simp
    obtain ⟨hnr, hrd⟩ := List.nodup_cons.mp hnd
    have hsub' : ∀ x ∈ rest, x ∈ l.erase e := by
      intro x hx
      have hxe : x ≠ e := fun h => hnr (h ▸ hx)
      exact (List.mem_erase_of_ne hxe).mpr (hsub x (by simp [hx]))
    have := ih (l.erase e) hrd hsub'
    simp only [List.map_cons, List.sum_cons]
    omega

theorem walkCost_edges {g : Graph} {p : List Nat} {w : Nat} (h : WalkCost g p w) :
    p.Nodup →
    ∃ used : List Edge, used.Nodup ∧ (∀ e ∈ used, e ∈ g.edges) ∧
      w = (used.map Edge.weight).sum ∧
      ∀ e ∈ used, e.node1 ∈ p ∧ e.node2 ∈ p := by
  induction h with
  | single a =>
    intro _
    exact ⟨[], by simp, by simp, by simp, by simp⟩
  | cons a b p' w' e he hj hw ih =>
    intro hnd
    obtain ⟨hna, hnd'⟩ := List.nodup_cons.mp hnd
    obtain ⟨used, hu1, hu2, hu3, hu4⟩ := ih hnd'
    have hab : e.node1 ∈ a :: b :: p' ∧ e.node2 ∈ a :: b :: p' := by
      rcases hj with ⟨h1, h2⟩ | ⟨h1, h2⟩ <;> simp [h1, h2]
    have henot : e ∉ used := by
      intro hmem
      rcases hj with ⟨h1, _⟩ | ⟨_, h2⟩
      · exact hna (h1 ▸ (hu4 e hmem).1)
      · exact hna (h2 ▸ (hu4 e hmem).2)
    refine ⟨e :: used, List.nodup_cons.mpr ⟨henot, hu1⟩, ?_, ?_, ?_⟩
    · intro e' he'
      rcases List.mem_cons.mp he' with rfl | h'
      · exact he
      · exact hu2 e' h'
    · simp [hu3]
    · intro e' he'
      rcases List.mem_cons.mp he' with rfl | h'
      · exact hab
      · exact ⟨List.mem_cons_of_mem _ (hu4 e' h').1, List.mem_cons_of_mem _ (hu4 e' h').2⟩

theorem nodup_walk_le_weightSum {g : Graph} {p : List Nat} {w : Nat}
    (h : WalkCost g p w) (hnd : p.Nodup) : w ≤ weightSum g := by
  obtain ⟨used, h1, h2, h3, _⟩ := walkCost_edges h hnd
  rw [h3]
  exact nodup_subset_weightSum used g.edges h1 h2

/-! ## Rootedness of the predecessor map

`RootedIn prev k n` says the backward walk from `n` through `prev` reaches a
node with no predecessor entry in at most `k` lookups; it is the invariant
that makes the path-reconstruction loop terminate. -/

inductive RootedIn (prev : HMap) : Nat → Nat → Prop where
  | root (k n : Nat) : hmGet prev n = none → RootedIn prev (k + 1) n
  | step (k n c : Nat) : hmGet prev n = some c → RootedIn prev k c → RootedIn prev (k + 1) n

theorem RootedIn.le {prev : HMap} {k k' n : Nat} (h : RootedIn prev k n) (hk : k ≤ k') :
    RootedIn prev k' n := by
  induction h generalizing k' with
  | root k n hn =>
    obtain ⟨k'', rfl⟩ := Nat.exists_eq_add_of_le hk
    cases k'' with
    | zero => exact RootedIn.root k n hn
    | succ m => exact RootedIn.root _ n hn
  | step k n c hn hc ih =>
    obtain ⟨k'', rfl⟩ := Nat.exists_eq_add_of_le hk
    have : RootedIn prev (k + k'') c := ih (Nat.le_add_right k k'')
    have heq : k + 1 + k'' = (k + k'') + 1 := by omega
    rw [heq]
    exact RootedIn.step _ n c hn this

theorem RootedIn.insert_of_ne {prev : HMap} {k m t v : Nat} (h : RootedIn prev k m)
    (hnp : ∀ x c, hmGet prev x = some c → c ≠ t) (hm : m ≠ t) :
    RootedIn (hmInsert prev t v) k m := by
  induction h with
  | root k n hn => exact RootedIn.root k n (by rw [hmGet_insert_ne _ _ _ _ hm]; exact hn)
  | step k n c hn hc ih =>
    exact RootedIn.step k n c (by rw [hmGet_insert_ne _ _ _ _ hm]; exact hn)
      (ih (hnp n c hn))

/-! ## Small step lemmas about the engine -/

theorem hmGet_insert_isSome {m : HMap} {k v n : Nat} (h : (hmGet m n).isSome) :
    (hmGet (hmInsert m k v) n).isSome := by
  by_cases hn : n = k
  · subst hn; simp [hmGet_insert_self]
  · rwa [hmGet_insert_ne _ _ _ _ hn]

theorem edgeNeighbor_joins {closest n : Nat} {e : Edge}
    (h : edgeNeighbor closest e = some n) :
    joins e closest n ∧ (n = e.node1 ∨ n = e.node2) := by
  unfold edgeNeighbor at h
  by_cases h1 : e.node1 = closest
  · rw [if_pos h1] at h
    injection h with h
    exact ⟨Or.inl ⟨h1, h⟩, Or.inr h.symm⟩
  · rw [if_neg h1] at h
    by_cases h2 : e.node2 = closest
    · rw [if_pos h2] at h
      injection h with h
      exact ⟨Or.inr ⟨h, h2⟩, Or.inl h.symm⟩
    · rw [if_neg h2] at h
      exact absurd h (by simp)

theorem joins_edgeNeighbor {closest m : Nat} {e : Edge} (hj : joins e closest m) :
    edgeNeighbor closest e = some m := by
  unfold edgeNeighbor
  rcases hj with ⟨h1, h2⟩ | ⟨h1, h2⟩
  · rw [if_pos h1, h2]
  · by_cases hc : e.node1 = closest
    · rw [if_pos hc]
      rw [hc] at h1
      rw [← h1, h2]
    · rw [if_neg hc, if_pos h2, h1]

theorem relaxEdges_ne_none {closest : Nat} {es : List Edge} {dist prev : HMap}
    (hc : (hmGet dist closest).isSome)
    (hes : ∀ e ∈ es, ∀ n, edgeNeighbor closest e = some n → (hmGet dist n).isSome) :
    relaxEdges closest es dist prev ≠ none := by
  induction es generalizing dist prev with
  | nil => simp [relaxEdges]
  | cons e es ih =>
    have hes' : ∀ e' ∈ es, ∀ n, edgeNeighbor closest e' = some n → (hmGet dist n).isSome :=
      fun e' h' => hes e' (List.mem_cons_of_mem _ h')
    cases hn : edgeNeighbor closest e with
    | none =>
      have : relaxEdges closest (e :: es) dist prev = relaxEdges closest es dist prev := by
        simp [relaxEdges, hn]
      rw [this]
      exact ih hc hes'
    | some nb =>
      obtain ⟨dc, hdc⟩ := Option.isSome_iff_exists.mp hc
      obtain ⟨dn, hdn⟩ := Option.isSome_iff_exists.mp (hes e (by simp) nb hn)
      by_cases hlt : usizeAdd dc e.weight < dn
      · have : relaxEdges closest (e :: es) dist prev =
            relaxEdges closest es (hmInsert dist nb (usizeAdd dc e.weight))
              (hmInsert prev nb closest) := by
          simp [relaxEdges, hn, hdc, hdn, hlt]
        rw [this]
        exact ih (hmGet_insert_isSome hc)
          (fun e' h' n hne => hmGet_insert_isSome (hes' e' h' n hne))
      · have : relaxEdges closest (e :: es) dist prev = relaxEdges closest es dist prev := by
          simp [relaxEdges, hn, hdc, hdn, hlt]
        rw [this]
        exact ih hc hes'

/-! ## The loop as a step relation, and the master invariant -/

/-- `n` is settled: a graph node no longer on the unvisited list. -/
def Settled (g : Graph) (nodes : List Nat) (n : Nat) : Prop :=
  n ∈ nodeIds g ∧ n ∉ nodes

/-- A duplicate-free path from `start` to `n` of weight `dn`, all of whose
nodes except possibly the last are settled.  Every finite recorded distance
is realised by such a path, which bounds it by `weightSum` and rules out
wrapping under the no-overflow hypothesis. -/
def SWalk (g : Graph) (start : Nat) (nodes : List Nat) (n dn : Nat) : Prop :=
  ∃ p, WalkCost g p dn ∧ p.head? = some start ∧ p.getLast? = some n ∧
    p.Nodup ∧ ∀ x ∈ p.dropLast, Settled g nodes x

theorem SWalk.toWalkW {g : Graph} {start : Nat} {nodes : List Nat} {n dn : Nat}
    (h : SWalk g start nodes n dn) : WalkW g start n dn := by
  obtain ⟨p, h1, h2, h3, _, _⟩ := h
  exact ⟨p, h1, h2, h3⟩

theorem SWalk.le_weightSum {g : Graph} {start : Nat} {nodes : List Nat} {n dn : Nat}
    (h : SWalk g start nodes n dn) : dn ≤ weightSum g := by
  obtain ⟨p, h1, _, _, h4, _⟩ := h
  exact nodup_walk_le_weightSum h1 h4

theorem SWalk.mono {g : Graph} {start : Nat} {nodes nodes2 : List Nat} {n dn : Nat}
    (hsub : ∀ x, Settled g nodes x → Settled g nodes2 x)
    (h : SWalk g start nodes n dn) : SWalk g start nodes2 n dn := by
  obtain ⟨p, h1, h2, h3, h4, h5⟩ := h
  exact ⟨p, h1, h2, h3, h4, fun x hx => hsub x (h5 x hx)⟩

/-- One successful iteration of the main loop of `find_shortest_path`:
the minimum scan picks `closest`, neither stopping condition fires, and the
retain/relaxation updates produce the next state.  States are triples
`(distances, previous, nodes)`. -/
def Step (g : Graph) (endId : Nat) : HMap × HMap × List Nat → HMap × HMap × List Nat → Prop
  | (dist, prev, nodes), (dist', prev', nodes') =>
    ∃ closest d, minScan dist nodes = some (some (closest, d)) ∧ closest ≠ endId ∧
      hmGet dist closest = some d ∧ d ≠ MAX ∧
      relaxEdges closest g.edges dist prev = some (dist', prev') ∧
      nodes' = nodes.filter (fun n => n != closest)

/-- The state at which the main loop stopped: either the unvisited list is
exhausted, or the scanned minimum is the end node or has the sentinel
distance. -/
def ExitCond (endId : Nat) (dist : HMap) (nodes : List Nat) : Prop :=
  minScan dist nodes = some none ∨
    ∃ c d, minScan dist nodes = some (some (c, d)) ∧ (c = endId ∨ d = MAX)

/-- The master invariant of the main loop, over the state
`(dist, prev, nodes)` of a query from `start` on `g`. -/
structure Inv (g : Graph) (start : Nat) (dist prev : HMap) (nodes : List Nat) : Prop where
  keys : ∀ n, (hmGet dist n).isSome ↔ (n ∈ nodeIds g ∨ n = start)
  ub : ∀ n dn, hmGet dist n = some dn → dn ≤ MAX
  dstart : hmGet dist start = some 0
  sound : ∀ n dn, hmGet dist n = some dn → dn < MAX → SWalk g start nodes n dn
  nodes_sub : ∀ n ∈ nodes, n ∈ nodeIds g
  len_le : nodes.length ≤ g.nodes.length
  mono : ∀ s ds, Settled g nodes s → hmGet dist s = some ds →
    ∀ u ∈ nodes, ∀ du, hmGet dist u = some du → ds ≤ du
  settled_fin : ∀ s, Settled g nodes s → ∃ ds, hmGet dist s = some ds ∧ ds < MAX
  settled_opt : GraphWF g → ∀ s, Settled g nodes s →
    ∃ ds, hmGet dist s = some ds ∧ IsLeast (walkSet g start s) ds
  frontier : ∀ s ds, Settled g nodes s → hmGet dist s = some ds →
    ∀ e ∈ g.edges, ∀ n, joins e s n → ∀ dn, hmGet dist n = some dn → dn ≤ ds + e.weight
  prev_ok : ∀ n c, hmGet prev n = some c →
    c ∈ nodeIds g ∧ c ∉ nodes ∧ n ∈ nodeIds g ∧ n ≠ start ∧
      ∃ dc dn e, hmGet dist c = some dc ∧ hmGet dist n = some dn ∧
        e ∈ g.edges ∧ joins e c n ∧ dn = dc + e.weight ∧ dn < MAX
  prev_start : hmGet prev start = none
  fin_prev : ∀ n dn, n ≠ start → hmGet dist n = some dn → dn < MAX → (hmGet prev n).isSome
  rooted : ∀ n, RootedIn prev (g.nodes.length + 1 - nodes.length) n

theorem inv_init (g : Graph) (start : Nat) :
    Inv g start (initDist g start) [] (initNodes g) := by
  have hchar := hmGet_initDist g start
  have hne : ∀ n dn, hmGet (initDist g start) n = some dn → n = start ∨ dn = MAX := by
    intro n dn h
    rw [hchar n] at h
    by_cases h1 : n = start
    · exact Or.inl h1
    · rw [if_neg h1] at h
      by_cases h2 : n ∈ nodeIds g
      · rw [if_pos h2] at h
        exact Or.inr (by injection h; omega)
      · rw [if_neg h2] at h; exact absurd h (by simp)
  refine ⟨?_, ?_, ?_, ?_, ?_, ?_, ?_, ?_, ?_, ?_, ?_, ?_, ?_, ?_⟩
  · intro n
    rw [hchar n]
    by_cases h1 : n = start
    · simp [h1]
    · by_cases h2 : n ∈ nodeIds g <;> simp [h1, h2, initNodes, nodeIds]
  · intro n dn h
    rcases hne n dn h with h1 | h1
    · subst h1
      rw [hchar, if_pos rfl] at h
      injection h with h
      omega
    · omega
  · rw [hchar, if_pos rfl]
  · intro n dn h hlt
    rcases hne n dn h with h1 | h1
    · subst h1
      rw [hchar, if_pos rfl] at h
      injection h with h
      exact h ▸ ⟨[n], WalkCost.single n, rfl, rfl, List.nodup_singleton n, by simp⟩
    · omega
  · intro n hn
    simpa [initNodes, nodeIds] using hn
  · simp [initNodes, nodeIds]
  · rintro s ds ⟨hs1, hs2⟩
    exact absurd (by simpa [initNodes, nodeIds] using hs1) hs2
  · rintro s ⟨hs1, hs2⟩
    exact absurd (by simpa [initNodes, nodeIds] using hs1) hs2
  · rintro hwf s ⟨hs1, hs2⟩
    exact absurd (by simpa [initNodes, nodeIds] using hs1) hs2
  · rintro s ds ⟨hs1, hs2⟩
    exact absurd (by simpa [initNodes, nodeIds] using hs1) hs2
  · intro n c h
    simp [hmGet] at h
  · simp [hmGet]
  · intro n dn hns h hlt
    rcases hne n dn h with h1 | h1
    · exact absurd h1 hns
    · omega
  · intro n
    have h1 : g.nodes.length + 1 - (initNodes g).length = 0 + 1 := by
      simp [initNodes]
    rw [h1]
    exact RootedIn.root 0 n rfl

/-! ## The relaxation batch

`BState` is the invariant maintained while the relaxation loop for the
freshly settled node `closest` walks down the edge list.  `nodesPre` is the
unvisited list before the `retain`, `nodes'` the list after it, `dist₀` the
distance table at the start of the batch, `d₀` the (stable) distance of
`closest`, and `B` the rootedness bound of the predecessor map at the start
of the batch. -/
structure BState (g : Graph) (start closest d₀ : Nat) (nodesPre nodes' : List Nat)
    (dist₀ : HMap) (B : Nat) (dist prev : HMap) : Prop where
  keys : ∀ n, (hmGet dist n).isSome ↔ (n ∈ nodeIds g ∨ n = start)
  ub : ∀ n dn, hmGet dist n = some dn → dn ≤ MAX
  dstart : hmGet dist start = some 0
  dclosest : hmGet dist closest = some d₀
  sound : ∀ n dn, hmGet dist n = some dn → dn < MAX → SWalk g start nodes' n dn
  mono : ∀ s ds, Settled g nodes' s → hmGet dist s = some ds →
    ds ≤ d₀ ∧ ∀ u ∈ nodes', ∀ du, hmGet dist u = some du → ds ≤ du
  settled_fin : ∀ s, Settled g nodes' s → ∃ ds, hmGet dist s = some ds ∧ ds < MAX
  stable : ∀ s, Settled g nodes' s → hmGet dist s = hmGet dist₀ s
  decrease : ∀ n dn, hmGet dist n = some dn → ∃ d', hmGet dist₀ n = some d' ∧ dn ≤ d'
  frontier_old : ∀ s ds, Settled g nodesPre s → hmGet dist s = some ds →
    ∀ e ∈ g.edges, ∀ n, joins e s n → ∀ dn, hmGet dist n = some dn → dn ≤ ds + e.weight
  prev_ok : ∀ n c, hmGet prev n = some c →
    c ∈ nodeIds g ∧ c ∉ nodes' ∧ n ∈ nodeIds g ∧ n ≠ start ∧
      ∃ dc dn e, hmGet dist c = some dc ∧ hmGet dist n = some dn ∧
        e ∈ g.edges ∧ joins e c n ∧ dn = dc + e.weight ∧ dn < MAX
  prev_start : hmGet prev start = none
  fin_prev : ∀ n dn, n ≠ start → hmGet dist n = some dn → dn < MAX → (hmGet prev n).isSome
  rooted : ∀ n, RootedIn prev (B + 1) n
  rooted_closest : RootedIn prev B closest

/-- The single relaxation update (`alt_dist < distances[&neighbor]` fires)
preserves the batch invariant. -/
theorem bstate_update {g : Graph} {start closest d₀ : Nat} {nodesPre nodes' : List Nat}
    {dist₀ : HMap} {B : Nat} {dist prev : HMap}
    (hcl_ids : closest ∈ nodeIds g) (hd₀MAX : d₀ < MAX)
    (hmem' : ∀ n, n ∈ nodes' ↔ n ∈ nodesPre ∧ n ≠ closest)
    (bst : BState g start closest d₀ nodesPre nodes' dist₀ B dist prev)
    {e : Edge} (heg : e ∈ g.edges) {nb dn : Nat}
    (hn : edgeNeighbor closest e = some nb) (hdn : hmGet dist nb = some dn)
    (hlt : d₀ + e.weight < dn) :
    BState g start closest d₀ nodesPre nodes' dist₀ B
      (hmInsert dist nb (d₀ + e.weight)) (hmInsert prev nb closest) := by
  obtain ⟨hj, hnb12⟩ := edgeNeighbor_joins hn
  have hcl_settled : Settled g nodes' closest :=
    ⟨hcl_ids, fun h => ((hmem' closest).mp h).2 rfl⟩
  -- the update target is not `start`
  have hnb_start : nb ≠ start := by
    intro h
    rw [h, bst.dstart] at hdn
    injection hdn with hdn
    omega
  -- the update target is a graph node
  have hnb_ids : nb ∈ nodeIds g := by
    have : (hmGet dist nb).isSome := by rw [hdn]; rfl
    rcases (bst.keys nb).mp this with h | h
    · exact h
    · exact absurd h hnb_start
  -- the update target is still unvisited
  have hnb_mem : nb ∈ nodes' := by
    by_contra h
    have hs : Settled g nodes' nb := ⟨hnb_ids, h⟩
    have := (bst.mono nb dn hs hdn).1
    omega
  have hnb_cl : nb ≠ closest := fun h => ((hmem' nb).mp hnb_mem).2 h
  have haltMAX : d₀ + e.weight < MAX := lt_of_lt_of_le hlt (bst.ub nb dn hdn)
  have hget_other : ∀ n, n ≠ nb →
      hmGet (hmInsert dist nb (d₀ + e.weight)) n = hmGet dist n :=
    fun n h => hmGet_insert_ne _ _ _ _ h
  have hget_self : hmGet (hmInsert dist nb (d₀ + e.weight)) nb = some (d₀ + e.weight) :=
    hmGet_insert_self _ _ _
  have hsettled_ne : ∀ s, Settled g nodes' s → s ≠ nb := by
    rintro s hs rfl
    exact hs.2 hnb_mem
  refine ⟨?_, ?_, ?_, ?_, ?_, ?_, ?_, ?_, ?_, ?_, ?_, ?_, ?_, ?_, ?_⟩
  · -- keys
    intro n
    by_cases h : n = nb
    · subst h
      rw [hget_self]
      simp [hnb_ids]
    · rw [hget_other n h]
      exact bst.keys n
  · -- ub
    intro n dn' h
    by_cases hne : n = nb
    · subst hne
      rw [hget_self] at h
      injection h with h
      omega
    · rw [hget_other n hne] at h
      exact bst.ub n dn' h
  · -- dstart
    rw [hget_other start (Ne.symm hnb_start)]
    exact bst.dstart
  · -- dclosest
    rw [hget_other closest (Ne.symm hnb_cl)]
    exact bst.dclosest
  · -- sound
    intro n dn' h hbig
    by_cases hne : n = nb
    · subst hne
      rw [hget_self] at h
      injection h with h
      subst h
      obtain ⟨q, hq, hqh, hql, hqnd, hqset⟩ := bst.sound closest d₀ bst.dclosest hd₀MAX
      have hqall : ∀ x ∈ q, Settled g nodes' x := by
        intro x hx
        rcases mem_dropLast_or_getLast hx hql with h1 | h1
        · exact hqset x h1
        · exact h1 ▸ hcl_settled
      have hnbq : n ∉ q := fun hmem => (hqall n hmem).2 hnb_mem
      refine ⟨q ++ [n], walkCost_snoc hq hql heg hj, ?_, by simp, ?_, ?_⟩
      · rw [head?_append_left _ hq.ne_nil]
        exact hqh
      · rw [List.nodup_append]
        refine ⟨hqnd, List.nodup_singleton n, ?_⟩
        intro x hx hx2
        rw [List.mem_singleton] at hx2
        exact hnbq (hx2 ▸ hx)
      · intro x hx
        rw [List.dropLast_concat] at hx
        exact hqall x hx
    · rw [hget_other n hne] at h
      exact bst.sound n dn' h hbig
  · -- mono
    intro s ds hs h
    have hsne := hsettled_ne s hs
    rw [hget_other s hsne] at h
    obtain ⟨h1, h2⟩ := bst.mono s ds hs h
    refine ⟨h1, ?_⟩
    intro u hu du hdu
    by_cases hune : u = nb
    · subst hune
      rw [hget_self] at hdu
      injection hdu with hdu
      omega
    · rw [hget_other u hune] at hdu
      exact h2 u hu du hdu
  · -- settled_fin
    intro s hs
    obtain ⟨ds, h1, h2⟩ := bst.settled_fin s hs
    exact ⟨ds, by rw [hget_other s (hsettled_ne s hs)]; exact h1, h2⟩
  · -- stable
    intro s hs
    rw [hget_other s (hsettled_ne s hs)]
    exact bst.stable s hs
  · -- decrease
    intro n dn' h
    by_cases hne : n = nb
    · subst hne
      rw [hget_self] at h
      injection h with h
      obtain ⟨d', h1, h2⟩ := bst.decrease n dn hdn
      exact ⟨d', h1, by omega⟩
    · rw [hget_other n hne] at h
      exact bst.decrease n dn' h
  · -- frontier_old
    intro s ds hs h e' he' n hj' dn' hdn'
    have hsP : Settled g nodes' s := ⟨hs.1, fun hmem => hs.2 ((hmem' s).mp hmem).1⟩
    have hsne := hsettled_ne s hsP
    rw [hget_other s hsne] at h
    by_cases hne : n = nb
    · subst hne
      rw [hget_self] at hdn'
      injection hdn' with hdn'
      have := bst.frontier_old s ds hs h e' he' n hj' dn hdn
      omega
    · rw [hget_other n hne] at hdn'
      exact bst.frontier_old s ds hs h e' he' n hj' dn' hdn'
  · -- prev_ok
    intro n c h
    by_cases hne : n = nb
    · subst hne
      rw [hmGet_insert_self] at h
      injection h with h
      subst h
      refine ⟨hcl_ids, hcl_settled.2, hnb_ids, hnb_start,
        d₀, d₀ + e.weight, e, ?_, hget_self, heg, hj, rfl, haltMAX⟩
      rw [hget_other closest (Ne.symm hnb_cl)]
      exact bst.dclosest
    · rw [hmGet_insert_ne _ _ _ _ hne] at h
      obtain ⟨h1, h2, h3, h4, dc, dnn, e', h5, h6, h7, h8, h9, h10⟩ := bst.prev_ok n c h
      have hcne : c ≠ nb := hsettled_ne c ⟨h1, h2⟩
      exact ⟨h1, h2, h3, h4, dc, dnn, e',
        by rw [hget_other c hcne]; exact h5,
        by rw [hget_other n hne]; exact h6, h7, h8, h9, h10⟩
  · -- prev_start
    rw [hmGet_insert_ne _ _ _ _ (Ne.symm hnb_start)]
    exact bst.prev_start
  · -- fin_prev
    intro n dn' hns h hbig
    by_cases hne : n = nb
    · subst hne
      rw [hmGet_insert_self]
      rfl
    · rw [hget_other n hne] at h
      rw [hmGet_insert_ne _ _ _ _ hne]
      exact bst.fin_prev n dn' hns h hbig
  · -- rooted
    have hnp : ∀ x c, hmGet prev x = some c → c ≠ nb := by
      intro x c h
      exact hsettled_ne c ⟨(bst.prev_ok x c h).1, (bst.prev_ok x c h).2.1⟩
    intro m
    by_cases hm : m = nb
    · subst hm
      refine RootedIn.step B m closest (hmGet_insert_self _ _ _) ?_
      exact (bst.rooted_closest).insert_of_ne hnp (Ne.symm hnb_cl)
    · exact (bst.rooted m).insert_of_ne hnp hm
  · -- rooted_closest
    have hnp : ∀ x c, hmGet prev x = some c → c ≠ nb := by
      intro x c h
      exact hsettled_ne c ⟨(bst.prev_ok x c h).1, (bst.prev_ok x c h).2.1⟩
    exact (bst.rooted_closest).insert_of_ne hnp (Ne.symm hnb_cl)

/-- Walking the whole edge list preserves the batch invariant, relaxes every
edge out of `closest`, and only ever decreases distances.  The no-overflow
hypothesis `hW` turns every wrapping sum `usizeAdd` the source computes into
the plain sum: the settled distance `d₀` is a duplicate-free path weight,
so `d₀ + e.weight ≤ 2 * weightSum g < 2 ^ 64`. -/
theorem relax_batch {g : Graph} {start closest d₀ : Nat} {nodesPre nodes' : List Nat}
    {dist₀ : HMap} {B : Nat} (hW : 2 * weightSum g < U64)
    (hcl_ids : closest ∈ nodeIds g) (hd₀MAX : d₀ < MAX)
    (hmem' : ∀ n, n ∈ nodes' ↔ n ∈ nodesPre ∧ n ≠ closest) :
    ∀ es : List Edge, (∀ e ∈ es, e ∈ g.edges) → ∀ dist prev dist' prev',
    BState g start closest d₀ nodesPre nodes' dist₀ B dist prev →
    relaxEdges closest es dist prev = some (dist', prev') →
    BState g start closest d₀ nodesPre nodes' dist₀ B dist' prev' ∧
      (∀ e ∈ es, ∀ n, joins e closest n → ∀ dn, hmGet dist' n = some dn →
        dn ≤ d₀ + e.weight) ∧
      (∀ n d', hmGet dist' n = some d' → ∃ d, hmGet dist n = some d ∧ d' ≤ d) := by
  intro es
  induction es with
  | nil =>
    intro _ dist prev dist' prev' bst heq
    simp only [relaxEdges, Option.some.injEq, Prod.mk.injEq] at heq
    obtain ⟨rfl, rfl⟩ := heq
    exact ⟨bst, by simp, fun n d' h => ⟨d', h, le_refl d'⟩⟩
  | cons e es ih =>
    intro hsub dist prev dist' prev' bst heq
    have heg : e ∈ g.edges := hsub e (by simp)
    have hsub' : ∀ e' ∈ es, e' ∈ g.edges := fun e' h' => hsub e' (by simp [h'])
    cases hn : edgeNeighbor closest e with
    | none =>
      have hred : relaxEdges closest (e :: es) dist prev = relaxEdges closest es dist prev := by
        simp [relaxEdges, hn]
      rw [hred] at heq
      obtain ⟨bst', hfr, hdec⟩ := ih hsub' dist prev dist' prev' bst heq
      refine ⟨bst', ?_, hdec⟩
      intro e' he' n hj dn hdn
      rcases List.mem_cons.mp he' with rfl | he''
      · exact absurd (joins_edgeNeighbor hj) (by simp [hn])
      · exact hfr e' he'' n hj dn hdn
    | some nb =>
      cases hdn : hmGet dist nb with
      | none =>
        have : relaxEdges closest (e :: es) dist prev = none := by
          simp [relaxEdges, hn, bst.dclosest, hdn]
        rw [this] at heq
        exact absurd heq (by simp)
      | some dn =>
        have hd₀W : d₀ ≤ weightSum g :=
          SWalk.le_weightSum (bst.sound closest d₀ bst.dclosest hd₀MAX)
        have heW : e.weight ≤ weightSum g := weight_le_weightSum heg
        have heqadd : usizeAdd d₀ e.weight = d₀ + e.weight := by
          unfold usizeAdd
          exact Nat.mod_eq_of_lt (by omega)
        by_cases hlt : d₀ + e.weight < dn
        · -- the update fires
          have hred : relaxEdges closest (e :: es) dist prev =
              relaxEdges closest es (hmInsert dist nb (d₀ + e.weight))
                (hmInsert prev nb closest) := by
            simp [relaxEdges, hn, bst.dclosest, hdn, heqadd, hlt]
          rw [hred] at heq
          have bst1 := bstate_update hcl_ids hd₀MAX hmem' bst heg hn hdn hlt
          obtain ⟨bst', hfr, hdec⟩ := ih hsub' _ _ dist' prev' bst1 heq
          have hdec0 : ∀ n d', hmGet dist' n = some d' →
              ∃ d, hmGet dist n = some d ∧ d' ≤ d := by
            intro n d' h
            obtain ⟨d1, h1, h2⟩ := hdec n d' h
            by_cases hne : n = nb
            · subst hne
              rw [hmGet_insert_self] at h1
              injection h1 with h1
              exact ⟨dn, hdn, by omega⟩
            · rw [hmGet_insert_ne _ _ _ _ hne] at h1
              exact ⟨d1, h1, h2⟩
          refine ⟨bst', ?_, hdec0⟩
          intro e' he' n hj dn' hdn'
          rcases List.mem_cons.mp he' with rfl | he''
          · have hnn : edgeNeighbor closest e' = some n := joins_edgeNeighbor hj
            rw [hn] at hnn
            injection hnn with hnn
            subst hnn
            obtain ⟨d1, h1, h2⟩ := hdec nb dn' hdn'
            rw [hmGet_insert_self] at h1
            injection h1 with h1
            omega
          · exact hfr e' he'' n hj dn' hdn'
        · -- no improvement: `alt_dist < distances[&neighbor]` fails
          have hred : relaxEdges closest (e :: es) dist prev =
              relaxEdges closest es dist prev := by
            simp [relaxEdges, hn, bst.dclosest, hdn, heqadd, hlt]
          rw [hred] at heq
          obtain ⟨bst', hfr, hdec⟩ := ih hsub' dist prev dist' prev' bst heq
          refine ⟨bst', ?_, hdec⟩
          intro e' he' n hj dn' hdn'
          rcases List.mem_cons.mp he' with rfl | he''
          · have hnn : edgeNeighbor closest e' = some n := joins_edgeNeighbor hj
            rw [hn] at hnn
            injection hnn with hnn
            subst hnn
            obtain ⟨d1, h1, h2⟩ := hdec nb dn' hdn'
            rw [hdn] at h1
            injection h1 with h1
            omega
          · exact hfr e' he'' n hj dn' hdn'

/-! ## The crossing argument and the extraction lemma -/

theorem length_filter_ne_lt {l : List Nat} {c : Nat} (h : c ∈ l) :
    (l.filter (fun n => n != c)).length < l.length := by
  induction l with
  | nil => simp at h
  | cons a t ih =>
    by_cases hac : a = c
    · subst hac
      simp only [List.filter_cons, bne_self_eq_false, Bool.false_eq_true, if_neg]
      calc (t.filter (fun n => n != a)).length ≤ t.length := t.length_filter_le _
        _ < (a :: t).length := by simp
    · have hc : c ∈ t := by
        rcases List.mem_cons.mp h with h1 | h1
        · exact absurd h1.symm hac
        · exact h1
      have : (a != c) = true := bne_iff_ne.mpr hac
      simp only [List.filter_cons, this, if_pos]
      simpa using ih hc

/-- Along a path leaving the settled region, the first unvisited node has a
recorded distance no larger than the path's weight: every edge out of a
settled node has been relaxed, and settled distances are exact. -/
theorem cover_aux {g : Graph} {start : Nat} {dist prev : HMap} {nodes : List Nat}
    (hwf : GraphWF g) (inv : Inv g start dist prev nodes) :
    ∀ p w, WalkCost g p w → ∀ a da t, p.head? = some a → p.getLast? = some t →
      Settled g nodes a → hmGet dist a = some da → IsLeast (walkSet g start a) da →
      t ∈ nodes → ∃ u ∈ nodes, ∃ du, hmGet dist u = some du ∧ du ≤ da + w := by
  intro p w h
  induction h with
  | single x =>
    intro a da t hh hl hs hda hleast ht
    simp only [List.head?_cons, Option.some.injEq] at hh
    simp only [List.getLast?_singleton, Option.some.injEq] at hl
    obtain rfl := hh.symm
    obtain rfl := hl
    exact absurd ht hs.2
  | cons x b p' w' e he hj hw ih =>
    intro a da t hh hl hs hda hleast ht
    simp only [List.head?_cons, Option.some.injEq] at hh
    obtain rfl := hh.symm
    rw [List.getLast?_cons_cons] at hl
    have hb_ids : b ∈ nodeIds g := by
      rcases hj with ⟨h1, h2⟩ | ⟨h1, h2⟩
      · exact h2 ▸ (hwf e he).2
      · exact h1 ▸ (hwf e he).1
    obtain ⟨db, hdb⟩ := Option.isSome_iff_exists.mp ((inv.keys b).mpr (Or.inl hb_ids))
    by_cases hb : b ∈ nodes
    · refine ⟨b, hb, db, hdb, ?_⟩
      have := inv.frontier a da hs hda e he b hj db hdb
      omega
    · have hsb : Settled g nodes b := ⟨hb_ids, hb⟩
      obtain ⟨db', hdb', hleast'⟩ := inv.settled_opt hwf b hsb
      rw [hdb] at hdb'
      obtain rfl : db = db' := by injection hdb'
      have hb_le : db ≤ da + e.weight :=
        hleast'.2 (walkW_snoc hleast.1 he hj)
      obtain ⟨u, hu, du, hdu, hle⟩ := ih b db t rfl hl hsb hdb hleast' ht
      exact ⟨u, hu, du, hdu, by omega⟩

/-- Any path from `start` to a still-unvisited node passes through an
unvisited node whose recorded distance is at most the path's weight. -/
theorem cover {g : Graph} {start : Nat} {dist prev : HMap} {nodes : List Nat}
    (hwf : GraphWF g) (inv : Inv g start dist prev nodes) :
    ∀ p w t, WalkCost g p w → p.head? = some start → p.getLast? = some t → t ∈ nodes →
      ∃ u ∈ nodes, ∃ du, hmGet dist u = some du ∧ du ≤ w := by
  intro p w t hp hh hl ht
  by_cases hst : start ∈ nodes
  · exact ⟨start, hst, 0, inv.dstart, Nat.zero_le w⟩
  · cases hp with
    | single x =>
      simp only [List.head?_cons, Option.some.injEq] at hh
      simp only [List.getLast?_singleton, Option.some.injEq] at hl
      obtain rfl := hh.symm
      obtain rfl := hl
      exact absurd ht hst
    | cons x b p' w' e he hj hw =>
      simp only [List.head?_cons, Option.some.injEq] at hh
      obtain rfl := hh.symm
      have hst_ids : start ∈ nodeIds g := by
        rcases hj with ⟨h1, h2⟩ | ⟨h1, h2⟩
        · exact h1 ▸ (hwf e he).1
        · exact h2 ▸ (hwf e he).2
      have hss : Settled g nodes start := ⟨hst_ids, hst⟩
      obtain ⟨ds, hds, hleast⟩ := inv.settled_opt hwf start hss
      rw [inv.dstart] at hds
      obtain rfl : 0 = ds := by injection hds
      obtain ⟨u, hu, du, hdu, hle⟩ :=
        cover_aux hwf inv (start :: b :: p') (e.weight + w')
          (WalkCost.cons start b p' w' e he hj hw) start 0 t rfl hl hss inv.dstart hleast ht
      exact ⟨u, hu, du, hdu, by omega⟩

/-- The extraction lemma: when the minimum scan selects a node with a
finite distance, that distance is the least path weight from `start`. -/
theorem extraction {g : Graph} {start : Nat} {dist prev : HMap} {nodes : List Nat}
    {closest d : Nat} (hwf : GraphWF g) (inv : Inv g start dist prev nodes)
    (hscan : minScan dist nodes = some (some (closest, d))) (hdMAX : d < MAX) :
    IsLeast (walkSet g start closest) d := by
  obtain ⟨hmem, hget, hmin⟩ := minScan_some_some hscan
  constructor
  · exact (inv.sound closest d hget hdMAX).toWalkW
  · intro w hw
    obtain ⟨p, hp, hh, hl⟩ := hw
    obtain ⟨u, hu, du, hdu, hle⟩ := cover hwf inv p w closest hp hh hl hmem
    exact le_trans (hmin u hu du hdu) hle

/-! ## Preservation of the master invariant by one loop iteration -/

theorem inv_step {g : Graph} {endId start : Nat} {dist prev : HMap} {nodes : List Nat}
    {dist' prev' : HMap} {nodes' : List Nat} (hW : 2 * weightSum g < U64)
    (inv : Inv g start dist prev nodes)
    (hstep : Step g endId (dist, prev, nodes) (dist', prev', nodes')) :
    Inv g start dist' prev' nodes' ∧
      (∀ n, Settled g nodes n → hmGet dist' n = hmGet dist n) ∧
      (∀ n d', hmGet dist' n = some d' → ∃ d, hmGet dist n = some d ∧ d' ≤ d) ∧
      (∀ n, n ∈ nodes' → n ∈ nodes) := by
  obtain ⟨closest, d, hscan, hne, hget, hdne, hrelax, hnodes'⟩ := hstep
  obtain ⟨hmem, hget', hmin⟩ := minScan_some_some hscan
  have hdMAX : d < MAX := lt_of_le_of_ne (inv.ub closest d hget) hdne
  have hcl_ids : closest ∈ nodeIds g := inv.nodes_sub closest hmem
  have hmem' : ∀ n, n ∈ nodes' ↔ n ∈ nodes ∧ n ≠ closest := by
    intro n
    rw [hnodes']
    simp [List.mem_filter, bne_iff_ne]
  have hsettled' : ∀ s, Settled g nodes' s → s = closest ∨ Settled g nodes s := by
    rintro s ⟨h1, h2⟩
    by_cases hsc : s = closest
    · exact Or.inl hsc
    · refine Or.inr ⟨h1, fun hmem2 => h2 ((hmem' s).mpr ⟨hmem2, hsc⟩)⟩
  have hlen : nodes'.length < nodes.length := by
    rw [hnodes']
    exact length_filter_ne_lt hmem
  have hset_mono : ∀ x, Settled g nodes x → Settled g nodes' x := by
    rintro x ⟨h1, h2⟩
    exact ⟨h1, fun hm => h2 ((hmem' x).mp hm).1⟩
  -- the batch invariant at the start of the relaxation loop
  have bst0 : BState g start closest d nodes nodes'
      dist (g.nodes.length + 1 - nodes.length) dist prev := by
    refine ⟨inv.keys, inv.ub, inv.dstart, hget,
      fun n dn h hlt => SWalk.mono hset_mono (inv.sound n dn h hlt), ?_, ?_,
      fun s _ => rfl, fun n dn h => ⟨dn, h, le_refl dn⟩, inv.frontier, ?_,
      inv.prev_start, inv.fin_prev, ?_, inv.rooted closest⟩
    · -- mono
      intro s ds hs hds
      rcases hsettled' s hs with rfl | hsold
      · rw [hget] at hds
        obtain rfl : d = ds := by injection hds
        exact ⟨le_refl d, fun u hu du hdu => hmin u (((hmem' u).mp hu).1) du hdu⟩
      · refine ⟨inv.mono s ds hsold hds closest hmem d hget, ?_⟩
        intro u hu du hdu
        exact inv.mono s ds hsold hds u (((hmem' u).mp hu).1) du hdu
    · -- settled_fin
      intro s hs
      rcases hsettled' s hs with rfl | hsold
      · exact ⟨d, hget, hdMAX⟩
      · exact inv.settled_fin s hsold
    · -- prev_ok
      intro n c h
      obtain ⟨h1, h2, h3, h4, h5⟩ := inv.prev_ok n c h
      exact ⟨h1, fun hmem2 => h2 (((hmem' c).mp hmem2).1), h3, h4, h5⟩
    · -- rooted
      intro n
      exact (inv.rooted n).le (Nat.le_succ _)
  obtain ⟨bst', hfr, hdec⟩ := relax_batch hW hcl_ids hdMAX hmem' g.edges
    (fun e h => h) dist prev dist' prev' bst0 hrelax
  have hstable : ∀ n, Settled g nodes n → hmGet dist' n = hmGet dist n := by
    intro n hn
    exact bst'.stable n ⟨hn.1, fun hm => hn.2 (((hmem' n).mp hm).1)⟩
  refine ⟨?_, hstable, hdec, fun n hn => ((hmem' n).mp hn).1⟩
  refine ⟨bst'.keys, bst'.ub, bst'.dstart, bst'.sound, ?_, ?_, ?_, bst'.settled_fin,
    ?_, ?_, bst'.prev_ok, bst'.prev_start, bst'.fin_prev, ?_⟩
  · -- nodes_sub
    intro n hn
    exact inv.nodes_sub n (((hmem' n).mp hn).1)
  · -- len_le
    have h1 := inv.len_le
    omega
  · -- mono
    intro s ds hs hds
    exact (bst'.mono s ds hs hds).2
  · -- settled_opt
    intro hwf s hs
    rcases hsettled' s hs with rfl | hsold
    · exact ⟨d, bst'.dclosest, extraction hwf inv hscan hdMAX⟩
    · obtain ⟨ds, hds, hleast⟩ := inv.settled_opt hwf s hsold
      refine ⟨ds, ?_, hleast⟩
      rw [hstable s hsold]
      exact hds
  · -- frontier
    intro s ds hs hds e he n hj dn hdn
    rcases hsettled' s hs with rfl | hsold
    · rw [bst'.dclosest] at hds
      obtain rfl : d = ds := by injection hds
      exact hfr e he n hj dn hdn
    · exact bst'.frontier_old s ds hsold hds e he n hj dn hdn
  · -- rooted
    intro n
    refine (bst'.rooted n).le ?_
    have h1 := inv.len_le
    omega

/-! ## The main loop: fuel sufficiency, absence of panics, and the step
relation it follows -/

theorem loopGo_ne_fuelOut {g : Graph} {endId : Nat} :
    ∀ fuel (dist prev : HMap) (nodes : List Nat), nodes.length < fuel →
      loopGo g endId fuel dist prev nodes ≠ .fuelOut := by
  intro fuel
  induction fuel with
  | zero =>
    intro dist prev nodes h
    omega
  | succ f ih =>
    intro dist prev nodes h
    cases hscan : minScan dist nodes with
    | none => simp [loopGo, hscan]
    | some r =>
      cases r with
      | none => simp [loopGo, hscan]
      | some cd =>
        obtain ⟨closest, d⟩ := cd
        by_cases hce : closest = endId
        · simp [loopGo, hscan, hce]
        · cases hget : hmGet dist closest with
          | none => simp [loopGo, hscan, hce, hget]
          | some dc =>
            by_cases hmax : dc = MAX
            · simp [loopGo, hscan, hce, hget, hmax]
            · cases hrelax : relaxEdges closest g.edges dist prev with
              | none => simp [loopGo, hscan, hce, hget, hmax, hrelax]
              | some dp =>
                obtain ⟨dist', prev'⟩ := dp
                have hred : loopGo g endId (f + 1) dist prev nodes =
                    loopGo g endId f dist' prev' (nodes.filter (fun n => n != closest)) := by
                  simp [loopGo, hscan, hce, hget, hmax, hrelax]
                rw [hred]
                have hmem := (minScan_some_some hscan).1
                have hlen := length_filter_ne_lt hmem
                exact ih dist' prev' _ (by omega)

/-! ## The arithmetic-independent invariant

`LInv` collects the facts about the loop state that hold regardless of
whether any relaxation sum wraps: the distance table's key set, the pinned
zero at `start`, the sentinel upper bound, reachability of every node with
a finite distance, and the edge-validity of every predecessor entry.  It is
what the shape theorems (C2, C3, C5, C9) rest on, so they cover every
build and every input, overflowing or not. -/

structure LInv (g : Graph) (start : Nat) (dist prev : HMap) (nodes : List Nat) : Prop where
  keys : ∀ n, (hmGet dist n).isSome ↔ (n ∈ nodeIds g ∨ n = start)
  nodes_sub : ∀ n ∈ nodes, n ∈ nodeIds g
  dstart : hmGet dist start = some 0
  ub : ∀ n dn, hmGet dist n = some dn → dn ≤ MAX
  reach_fin : ∀ n dn, hmGet dist n = some dn → dn < MAX → Reachable g start n
  prev_ok : ∀ n c, hmGet prev n = some c → n ∈ nodeIds g ∧ n ≠ start ∧
    Reachable g start n ∧ ∃ e ∈ g.edges, joins e c n

theorem linv_init (g : Graph) (start : Nat) :
    LInv g start (initDist g start) [] (initNodes g) := by
  have hchar := hmGet_initDist g start
  have hne : ∀ n dn, hmGet (initDist g start) n = some dn → n = start ∨ dn = MAX := by
    intro n dn h
    rw [hchar n] at h
    by_cases h1 : n = start
    · exact Or.inl h1
    · rw [if_neg h1] at h
      by_cases h2 : n ∈ nodeIds g
      · rw [if_pos h2] at h
        exact Or.inr (by injection h; omega)
      · rw [if_neg h2] at h
        exact absurd h (by simp)
  refine ⟨?_, ?_, ?_, ?_, ?_, ?_⟩
  · intro n
    rw [hchar n]
    by_cases h1 : n = start
    · simp [h1]
    · by_cases h2 : n ∈ nodeIds g <;> simp [h1, h2, initNodes, nodeIds]
  · intro n hn
    simpa [initNodes, nodeIds] using hn
  · rw [hchar, if_pos rfl]
  · intro n dn h
    rcases hne n dn h with h1 | h1
    · subst h1
      rw [hchar, if_pos rfl] at h
      injection h with h
      omega
    · omega
  · intro n dn h hlt
    rcases hne n dn h with h1 | h1
    · subst h1
      exact ⟨0, walkW_refl g n⟩
    · omega
  · intro n c h
    simp [hmGet] at h

/-- One pass of the relaxation loop preserves the arithmetic-independent
facts: no assumption is made about the value the (possibly wrapped) sum
takes, only that an update stores a value strictly below the overwritten
one. -/
theorem relax_light {g : Graph} {start closest : Nat}
    (hreach : Reachable g start closest) :
    ∀ es : List Edge, (∀ e ∈ es, e ∈ g.edges) → ∀ dist prev dist' prev',
    (∀ n, (hmGet dist n).isSome ↔ (n ∈ nodeIds g ∨ n = start)) →
    hmGet dist start = some 0 →
    (∀ n dn, hmGet dist n = some dn → dn ≤ MAX) →
    (∀ n dn, hmGet dist n = some dn → dn < MAX → Reachable g start n) →
    (∀ n c, hmGet prev n = some c → n ∈ nodeIds g ∧ n ≠ start ∧
      Reachable g start n ∧ ∃ e ∈ g.edges, joins e c n) →
    relaxEdges closest es dist prev = some (dist', prev') →
    (∀ n, (hmGet dist' n).isSome ↔ (n ∈ nodeIds g ∨ n = start)) ∧
    hmGet dist' start = some 0 ∧
    (∀ n dn, hmGet dist' n = some dn → dn ≤ MAX) ∧
    (∀ n dn, hmGet dist' n = some dn → dn < MAX → Reachable g start n) ∧
    (∀ n c, hmGet prev' n = some c → n ∈ nodeIds g ∧ n ≠ start ∧
      Reachable g start n ∧ ∃ e ∈ g.edges, joins e c n) := by
  intro es
  induction es with
  | nil =>
    intro _ dist prev dist' prev' hk hs hu hr hp heq
    simp only [relaxEdges, Option.some.injEq, Prod.mk.injEq] at heq
    obtain ⟨rfl, rfl⟩ := heq
    exact ⟨hk, hs, hu, hr, hp⟩
  | cons e es ih =>
    intro hsub dist prev dist' prev' hk hs hu hr hp heq
    have heg : e ∈ g.edges := hsub e (by simp)
    have hsub' : ∀ e' ∈ es, e' ∈ g.edges := fun e' h' => hsub e' (by simp [h'])
    cases hn : edgeNeighbor closest e with
    | none =>
      have hred : relaxEdges closest (e :: es) dist prev =
          relaxEdges closest es dist prev := by
        simp [relaxEdges, hn]
      rw [hred] at heq
      exact ih hsub' dist prev dist' prev' hk hs hu hr hp heq
    | some nb =>
      obtain ⟨hj, _⟩ := edgeNeighbor_joins hn
      cases hdc : hmGet dist closest with
      | none =>
        have : relaxEdges closest (e :: es) dist prev = none := by
          simp [relaxEdges, hn, hdc]
        rw [this] at heq
        exact absurd heq (by simp)
      | some dc =>
        cases hdn : hmGet dist nb with
        | none =>
          have : relaxEdges closest (e :: es) dist prev = none := by
            simp [relaxEdges, hn, hdc, hdn]
          rw [this] at heq
          exact absurd heq (by simp)
        | some dn =>
          by_cases hlt : usizeAdd dc e.weight < dn
          · have hred : relaxEdges closest (e :: es) dist prev =
                relaxEdges closest es (hmInsert dist nb (usizeAdd dc e.weight))
                  (hmInsert prev nb closest) := by
              simp [relaxEdges, hn, hdc, hdn, hlt]
            rw [hred] at heq
            have hnb_start : nb ≠ start := by
              intro h
              rw [h, hs] at hdn
              injection hdn with hdn
              omega
            have hnb_ids : nb ∈ nodeIds g := by
              have hsome : (hmGet dist nb).isSome := by rw [hdn]; rfl
              rcases (hk nb).mp hsome with h | h
              · exact h
              · exact absurd h hnb_start
            have hnb_reach : Reachable g start nb := by
              obtain ⟨w, hw⟩ := hreach
              exact ⟨w + e.weight, walkW_snoc hw heg hj⟩
            refine ih hsub' _ _ dist' prev' ?_ ?_ ?_ ?_ ?_ heq
            · intro n
              by_cases h : n = nb
              · subst h
                rw [hmGet_insert_self]
                simp [hnb_ids]
              · rw [hmGet_insert_ne _ _ _ _ h]
                exact hk n
            · rw [hmGet_insert_ne _ _ _ _ (Ne.symm hnb_start)]
              exact hs
            · intro n dn' h
              by_cases hne : n = nb
              · subst hne
                rw [hmGet_insert_self] at h
                injection h with h
                have := hu n dn hdn
                omega
              · rw [hmGet_insert_ne _ _ _ _ hne] at h
                exact hu n dn' h
            · intro n dn' h hfin
              by_cases hne : n = nb
              · subst hne
                exact hnb_reach
              · rw [hmGet_insert_ne _ _ _ _ hne] at h
                exact hr n dn' h hfin
            · intro n c h
              by_cases hne : n = nb
              · subst hne
                rw [hmGet_insert_self] at h
                injection h with h
                subst h
                exact ⟨hnb_ids, hnb_start, hnb_reach, e, heg, hj⟩
              · rw [hmGet_insert_ne _ _ _ _ hne] at h
                exact hp n c h
          · have hred : relaxEdges closest (e :: es) dist prev =
                relaxEdges closest es dist prev := by
              simp [relaxEdges, hn, hdc, hdn, hlt]
            rw [hred] at heq
            exact ih hsub' dist prev dist' prev' hk hs hu hr hp heq

theorem linv_step {g : Graph} {endId start : Nat} {dist prev : HMap} {nodes : List Nat}
    {dist' prev' : HMap} {nodes' : List Nat}
    (hli : LInv g start dist prev nodes)
    (hstep : Step g endId (dist, prev, nodes) (dist', prev', nodes')) :
    LInv g start dist' prev' nodes' := by
  obtain ⟨closest, d, hscan, hne, hget, hdne, hrelax, hnodes'⟩ := hstep
  have hdMAX : d < MAX := lt_of_le_of_ne (hli.ub closest d hget) hdne
  have hreach : Reachable g start closest := hli.reach_fin closest d hget hdMAX
  obtain ⟨hk, hs, hu, hr, hp⟩ := relax_light hreach g.edges (fun e h => h)
    dist prev dist' prev' hli.keys hli.dstart hli.ub hli.reach_fin hli.prev_ok hrelax
  refine ⟨hk, ?_, hs, hu, hr, hp⟩
  intro n hn
  rw [hnodes'] at hn
  exact hli.nodes_sub n (List.mem_filter.mp hn).1

theorem linv_steps {g : Graph} {endId start : Nat} :
    ∀ {s s' : HMap × HMap × List Nat}, Relation.ReflTransGen (Step g endId) s s' →
      LInv g start s.1 s.2.1 s.2.2 → LInv g start s'.1 s'.2.1 s'.2.2 := by
  intro s s' h
  induction h with
  | refl => exact id
  | tail h1 h2 ih =>
    rename_i b c
    intro hli
    obtain ⟨b1, b2, b3⟩ := b
    obtain ⟨c1, c2, c3⟩ := c
    exact linv_step (ih hli) h2

theorem loopGo_ne_panic {g : Graph} {endId start : Nat} (hwf : GraphWF g) :
    ∀ fuel (dist prev : HMap) (nodes : List Nat), LInv g start dist prev nodes →
      loopGo g endId fuel dist prev nodes ≠ .panic := by
  intro fuel
  induction fuel with
  | zero =>
    intro dist prev nodes _
    simp [loopGo]
  | succ f ih =>
    intro dist prev nodes inv
    have hksome : ∀ n ∈ nodes, (hmGet dist n).isSome :=
      fun n hn => (inv.keys n).mpr (Or.inl (inv.nodes_sub n hn))
    cases hscan : minScan dist nodes with
    | none => exact absurd hscan (minScan_ne_none hksome)
    | some r =>
      cases r with
      | none => simp [loopGo, hscan]
      | some cd =>
        obtain ⟨closest, d⟩ := cd
        obtain ⟨hmem, hget, hmin⟩ := minScan_some_some hscan
        by_cases hce : closest = endId
        · simp [loopGo, hscan, hce]
        · by_cases hmax : d = MAX
          · simp [loopGo, hscan, hce, hget, hmax]
          · have hrne : relaxEdges closest g.edges dist prev ≠ none := by
              refine relaxEdges_ne_none (by rw [hget]; rfl) ?_
              intro e he n hn
              obtain ⟨hj, h12⟩ := edgeNeighbor_joins hn
              refine (inv.keys n).mpr (Or.inl ?_)
              rcases h12 with h1 | h1
              · exact h1 ▸ (hwf e he).1
              · exact h1 ▸ (hwf e he).2
            cases hrelax : relaxEdges closest g.edges dist prev with
            | none => exact absurd hrelax hrne
            | some dp =>
              obtain ⟨dist', prev'⟩ := dp
              have hred : loopGo g endId (f + 1) dist prev nodes =
                  loopGo g endId f dist' prev' (nodes.filter (fun n => n != closest)) := by
                simp [loopGo, hscan, hce, hget, hmax, hrelax]
              rw [hred]
              have hstep : Step g endId (dist, prev, nodes)
                  (dist', prev', nodes.filter (fun n => n != closest)) :=
                ⟨closest, d, hscan, hce, hget, hmax, hrelax, rfl⟩
              exact ih dist' prev' _ (linv_step inv hstep)

theorem loopGo_ok_steps {g : Graph} {endId : Nat} :
    ∀ fuel (dist prev : HMap) (nodes : List Nat) (dist' prev' : HMap) (nodes' : List Nat),
      loopGo g endId fuel dist prev nodes = .ok dist' prev' nodes' →
      Relation.ReflTransGen (Step g endId) (dist, prev, nodes) (dist', prev', nodes') ∧
        ExitCond endId dist' nodes' := by
  intro fuel
  induction fuel with
  | zero =>
    intro dist prev nodes dist' prev' nodes' h
    simp [loopGo] at h
  | succ f ih =>
    intro dist prev nodes dist' prev' nodes' h
    cases hscan : minScan dist nodes with
    | none => rw [loopGo, hscan] at h; exact absurd h (by simp)
    | some r =>
      cases r with
      | none =>
        rw [loopGo, hscan] at h
        simp only [LoopResult.ok.injEq] at h
        obtain ⟨rfl, rfl, rfl⟩ := h
        exact ⟨Relation.ReflTransGen.refl, Or.inl hscan⟩
      | some cd =>
        obtain ⟨closest, d⟩ := cd
        by_cases hce : closest = endId
        · rw [loopGo, hscan] at h
          simp only [hce, if_pos rfl, LoopResult.ok.injEq] at h
          obtain ⟨rfl, rfl, rfl⟩ := h
          exact ⟨Relation.ReflTransGen.refl,
            Or.inr ⟨closest, d, hscan, Or.inl hce⟩⟩
        · cases hget : hmGet dist closest with
          | none => rw [loopGo, hscan] at h; simp [hce, hget] at h
          | some dc =>
            have hdc : dc = d := by
              have := (minScan_some_some hscan).2.1
              rw [hget] at this
              injection this
            subst hdc
            by_cases hmax : dc = MAX
            · rw [loopGo, hscan] at h
              simp only [hce, if_neg, hget, hmax, if_pos rfl, LoopResult.ok.injEq] at h
              obtain ⟨rfl, rfl, rfl⟩ := h
              exact ⟨Relation.ReflTransGen.refl,
                Or.inr ⟨closest, dc, hscan, Or.inr hmax⟩⟩
            · cases hrelax : relaxEdges closest g.edges dist prev with
              | none => rw [loopGo, hscan] at h; simp [hce, hget, hmax, hrelax] at h
              | some dp =>
                obtain ⟨dist1, prev1⟩ := dp
                have hred : loopGo g endId (f + 1) dist prev nodes =
                    loopGo g endId f dist1 prev1 (nodes.filter (fun n => n != closest)) := by
                  simp [loopGo, hscan, hce, hget, hmax, hrelax]
                rw [hred] at h
                obtain ⟨hrtg, hexit⟩ := ih dist1 prev1 _ dist' prev' nodes' h
                refine ⟨Relation.ReflTransGen.head ?_ hrtg, hexit⟩
                exact ⟨closest, dc, hscan, hce, hget, hmax, hrelax, rfl⟩

theorem inv_steps {g : Graph} {endId start : Nat} (hW : 2 * weightSum g < U64) :
    ∀ {s s' : HMap × HMap × List Nat}, Relation.ReflTransGen (Step g endId) s s' →
      Inv g start s.1 s.2.1 s.2.2 → Inv g start s'.1 s'.2.1 s'.2.2 := by
  intro s s' h
  induction h with
  | refl => exact id
  | tail h1 h2 ih =>
    rename_i b c
    intro hinv
    obtain ⟨b1, b2, b3⟩ := b
    obtain ⟨c1, c2, c3⟩ := c
    exact (inv_step hW (ih hinv) h2).1

/-! ## Path reconstruction -/

/-- Following the predecessor chain from a node with a finite recorded
distance reaches `start` and spells out, reversed, a path from `start`
whose total weight is exactly that recorded distance. -/
theorem buildPath_reconstruct {g : Graph} {start : Nat} {dist prev : HMap}
    {nodesF : List Nat} (inv : Inv g start dist prev nodesF) :
    ∀ k n, RootedIn prev k n → ∀ dn, hmGet dist n = some dn → dn < MAX →
      ∀ fuel, k ≤ fuel → ∀ acc,
      ∃ l, buildPath fuel prev n acc = some (acc ++ n :: l) ∧
        WalkCost g ((n :: l).reverse) dn ∧
        ((n :: l).reverse).head? = some start ∧
        ((n :: l).reverse).getLast? = some n := by
  intro k n h
  induction h with
  | root k n hroot =>
    intro dn hdn hlt fuel hfuel acc
    cases fuel with
    | zero => omega
    | succ f =>
      have hns : start = n := by
        by_contra hns
        have := inv.fin_prev n dn (fun h => hns h.symm) hdn hlt
        rw [hroot] at this
        simp at this
      obtain rfl := hns
      have h0 : dn = 0 := by
        rw [inv.dstart] at hdn
        injection hdn with hdn
        omega
      subst h0
      refine ⟨[], ?_, WalkCost.single start, rfl, rfl⟩
      simp [buildPath, hroot]
  | step k n c hstep hc ih =>
    intro dn hdn hlt fuel hfuel acc
    cases fuel with
    | zero => omega
    | succ f =>
      obtain ⟨hc_ids, hc_notin, hn_ids, hn_start, dc, dn', e, hdc, hdn', heg, hj, heqw, hltM⟩ :=
        inv.prev_ok n c hstep
      rw [hdn] at hdn'
      obtain rfl : dn = dn' := by injection hdn'
      have hdcM : dc < MAX := by omega
      obtain ⟨l', hbp, hwc, hhd, hlast⟩ := ih dc hdc hdcM f (by omega) (acc ++ [n])
      have hrev : (n :: c :: l').reverse = ((c :: l').reverse) ++ [n] := by simp
      refine ⟨c :: l', ?_, ?_, ?_, ?_⟩
      · have hred : buildPath (f + 1) prev n acc = buildPath f prev c (acc ++ [n]) := by
          simp [buildPath, hstep]
        rw [hred, hbp]
        simp
      · rw [hrev, heqw]
        exact walkCost_snoc hwc hlast heg hj
      · rw [hrev, head?_append_left _ (by simp)]
        exact hhd
      · simp

/-! ## Characterisation of a full run -/

theorem step_end_mem {g : Graph} {endId : Nat} {s s' : HMap × HMap × List Nat}
    (h : Step g endId s s') (hmem : endId ∈ s.2.2) : endId ∈ s'.2.2 := by
  obtain ⟨d1, p1, n1⟩ := s
  obtain ⟨d2, p2, n2⟩ := s'
  obtain ⟨closest, d, _, hne, _, _, _, hnodes⟩ := h
  simp only at hmem ⊢
  rw [hnodes]
  simp only [List.mem_filter]
  exact ⟨hmem, bne_iff_ne.mpr (fun h => hne h.symm)⟩

theorem steps_end_mem {g : Graph} {endId : Nat} :
    ∀ {s s' : HMap × HMap × List Nat}, Relation.ReflTransGen (Step g endId) s s' →
      endId ∈ s.2.2 → endId ∈ s'.2.2 := by
  intro s s' h
  induction h with
  | refl => exact id
  | tail h1 h2 ih => exact fun hm => step_end_mem h2 (ih hm)

/-- Outcome of the main loop of a query: either a panic, or a final state
reached from the initial one by loop iterations, satisfying one of the
loop's exit conditions, with the end node still unvisited if it was a graph
node.  (The master invariant at the final state follows through `inv_steps`
under the no-overflow hypothesis; the arithmetic-independent `LInv` follows
through `linv_steps` unconditionally.) -/
theorem loop_final (g : Graph) (start endId : Nat) :
    loopGo g endId ((initNodes g).length + 1) (initDist g start) [] (initNodes g) = .panic ∨
    ∃ dist prev nodesF,
      loopGo g endId ((initNodes g).length + 1) (initDist g start) [] (initNodes g) =
        .ok dist prev nodesF ∧
      Relation.ReflTransGen (Step g endId) (initDist g start, [], initNodes g)
        (dist, prev, nodesF) ∧
      ExitCond endId dist nodesF ∧
      (endId ∈ initNodes g → endId ∈ nodesF) := by
  cases hres : loopGo g endId ((initNodes g).length + 1) (initDist g start) [] (initNodes g) with
  | panic => exact Or.inl rfl
  | fuelOut => exact absurd hres (loopGo_ne_fuelOut _ _ _ _ (by omega))
  | ok dist prev nodesF =>
    refine Or.inr ⟨dist, prev, nodesF, rfl, ?_, ?_, ?_⟩
    · exact (loopGo_ok_steps _ _ _ _ _ _ _ hres).1
    · exact (loopGo_ok_steps _ _ _ _ _ _ _ hres).2
    · exact fun hm => steps_end_mem (loopGo_ok_steps _ _ _ _ _ _ _ hres).1 hm

/-- Whatever the backward walk returns, it is the accumulator followed by
the predecessor chain it traversed: consecutive elements of the suffix are
linked by `previous` entries.  Purely structural — no invariant needed. -/
theorem buildPath_chain : ∀ (fuel : Nat) (prev : HMap) (cur : Nat) (acc out : List Nat),
    buildPath fuel prev cur acc = some out →
    ∃ l, out = acc ++ cur :: l ∧
      List.Chain' (fun a b => hmGet prev a = some b) (cur :: l) := by
  intro fuel
  induction fuel with
  | zero =>
    intro prev cur acc out h
    simp [buildPath] at h
  | succ f ih =>
    intro prev cur acc out h
    cases hp : hmGet prev cur with
    | none =>
      have hred : buildPath (f + 1) prev cur acc = some (acc ++ [cur]) := by
        simp [buildPath, hp]
      rw [hred] at h
      injection h with h
      exact ⟨[], h.symm, by simp⟩
    | some c =>
      have hred : buildPath (f + 1) prev cur acc = buildPath f prev c (acc ++ [cur]) := by
        simp [buildPath, hp]
      rw [hred] at h
      obtain ⟨l', hout, hchain⟩ := ih prev c (acc ++ [cur]) out h
      refine ⟨c :: l', by simpa using hout, ?_⟩
      exact List.chain'_cons.mpr ⟨hp, hchain⟩

/-- When the end node has no predecessor entry at the loop's exit, the
reconstruction yields `[end]` and the head check decides the answer.
Arithmetic-independent: no invariant about distance values is needed. -/
theorem find_of_prev_none {g : Graph} {start endId : Nat} {dist prev : HMap}
    {nodesF : List Nat}
    (hres : loopGo g endId ((initNodes g).length + 1) (initDist g start) [] (initNodes g) =
      .ok dist prev nodesF)
    (hpe : hmGet prev endId = none) :
    find_shortest_path g start endId =
      (if endId = start then .ok (some [endId]) else .ok none) := by
  have hbp : buildPath (g.nodes.length + 2) prev endId [] = some [endId] := by
    simp [buildPath, hpe]
  by_cases hes : endId = start
  · subst hes
    simp [find_shortest_path, hres, hbp]
  · simp [find_shortest_path, hres, hbp, hes]

/-- What `find_shortest_path` returns once the main loop has stopped
without a panic: either the end node has no predecessor entry (yielding
`Some([end])` exactly when `end = start`, `None` otherwise), or the
predecessor chain from the end node spells a path from `start` of weight
exactly the recorded distance of the end node. -/
theorem find_eq_of_loop_ok {g : Graph} {start endId : Nat} {dist prev : HMap}
    {nodesF : List Nat}
    (hres : loopGo g endId ((initNodes g).length + 1) (initDist g start) [] (initNodes g) =
      .ok dist prev nodesF)
    (hinv : Inv g start dist prev nodesF) :
    (hmGet prev endId = none ∧
      find_shortest_path g start endId =
        (if endId = start then .ok (some [endId]) else .ok none)) ∨
    (∃ c dn l, hmGet prev endId = some c ∧ hmGet dist endId = some dn ∧ dn < MAX ∧
      find_shortest_path g start endId = .ok (some ((endId :: l).reverse)) ∧
      WalkCost g ((endId :: l).reverse) dn ∧
      ((endId :: l).reverse).head? = some start ∧
      ((endId :: l).reverse).getLast? = some endId) := by
  cases hpe : hmGet prev endId with
  | none =>
    refine Or.inl ⟨rfl, ?_⟩
    have hbp : buildPath (g.nodes.length + 2) prev endId [] = some [endId] := by
      simp [buildPath, hpe]
    by_cases hes : endId = start
    · subst hes
      simp [find_shortest_path, hres, hbp]
    · simp [find_shortest_path, hres, hbp, hes]
  | some c =>
    obtain ⟨hc_ids, hc_notin, hn_ids, hn_start, dc, dn, e, hdc, hdn, heg, hj, heqw, hltM⟩ :=
      hinv.prev_ok endId c hpe
    have hroot : RootedIn prev (g.nodes.length + 2) endId :=
      (hinv.rooted endId).le (by omega)
    obtain ⟨l, hbp, hwc, hhd, hlast⟩ := buildPath_reconstruct hinv _ endId hroot dn hdn
      (by omega) (g.nodes.length + 2) (le_refl _) []
    rw [List.nil_append] at hbp
    refine Or.inr ⟨c, dn, l, rfl, hdn, by omega, ?_, hwc, hhd, hlast⟩
    cases hrev : (endId :: l).reverse with
    | nil => exact absurd hrev (by simp)
    | cons h t =>
      have hhs : h = start := by
        rw [hrev] at hhd
        injection hhd
      simp [find_shortest_path, hres, hbp, hrev, hhs]

/-! ## Endpoint lemmas and the final-state analysis -/

theorem walk_head_ids {g : Graph} (hwf : GraphWF g) {p : List Nat} {w a : Nat}
    (h : WalkCost g p w) (hh : p.head? = some a) : a ∈ nodeIds g ∨ p = [a] := by
  cases h with
  | single x =>
    simp only [List.head?_cons, Option.some.injEq] at hh
    exact Or.inr (by rw [hh])
  | cons x b p' w' e he hj hw =>
    simp only [List.head?_cons, Option.some.injEq] at hh
    obtain rfl := hh.symm
    rcases hj with ⟨h1, h2⟩ | ⟨h1, h2⟩
    · exact Or.inl (h1 ▸ (hwf e he).1)
    · exact Or.inl (h2 ▸ (hwf e he).2)

theorem walk_last_ids {g : Graph} (hwf : GraphWF g) {p : List Nat} {w t : Nat}
    (h : WalkCost g p w) (hl : p.getLast? = some t) : t ∈ nodeIds g ∨ p = [t] := by
  induction h with
  | single x =>
    simp only [List.getLast?_singleton, Option.some.injEq] at hl
    exact Or.inr (by rw [hl])
  | cons x b p' w' e he hj hw ih =>
    rw [List.getLast?_cons_cons] at hl
    rcases ih hl with h1 | h1
    · exact Or.inl h1
    · have hb : b = t := by
        have := congrArg List.head? h1
        simpa using this
      subst hb
      rcases hj with ⟨h1, h2⟩ | ⟨h1, h2⟩
      · exact Or.inl (h2 ▸ (hwf e he).2)
      · exact Or.inl (h1 ▸ (hwf e he).1)

/-- At the exit of the main loop, a reachable end node (through a path of
weight below the sentinel) carries exactly the least path weight. -/
theorem exit_end_least {g : Graph} {start endId : Nat} {dist prev : HMap}
    {nodesF : List Nat} {w : Nat} (hwf : GraphWF g)
    (hinv : Inv g start dist prev nodesF)
    (hexit : ExitCond endId dist nodesF)
    (hend : endId ∈ initNodes g → endId ∈ nodesF)
    (hleast : IsLeast (walkSet g start endId) w) (hwMAX : w < MAX) :
    hmGet dist endId = some w := by
  by_cases hids : endId ∈ nodeIds g
  · have hmemF : endId ∈ nodesF := hend hids
    obtain ⟨p, hp, hh, hl⟩ := hleast.1
    obtain ⟨u, hu, du, hdu, hule⟩ := cover hwf hinv p w endId hp hh hl hmemF
    rcases hexit with hnil | ⟨c, d, hscan, hor⟩
    · rw [minScan_some_none hnil] at hmemF
      simp at hmemF
    · obtain ⟨hcm, hcget, hcmin⟩ := minScan_some_some hscan
      have hdu2 := hcmin u hu du hdu
      rcases hor with rfl | rfl
      · -- the scan selected the end node
        have hdMAX : d < MAX := by
          have := le_trans hdu2 hule
          omega
        have hle := extraction hwf hinv hscan hdMAX
        have : d = w := le_antisymm (hle.2 hleast.1) (hleast.2 hle.1)
        rw [← this] at *
        exact hcget
      · -- the scanned minimum is the sentinel: impossible for a reachable end
        have := le_trans hdu2 hule
        omega
  · -- the end node is not a graph node: reachability forces `endId = start`
    obtain ⟨p, hp, hh, hl⟩ := hleast.1
    rcases walk_last_ids hwf hp hl with h1 | h1
    · exact absurd h1 hids
    · have hse : start = endId := by
        rw [h1] at hh
        injection hh with hh
        exact hh.symm
      have h0 : w = 0 := Nat.le_antisymm (hleast.2 (hse ▸ walkW_refl g start)) (Nat.zero_le w)
      rw [← hse, h0]
      exact hinv.dstart

/-! ## Multi-step monotonicity of the distance table -/

theorem steps_decrease {g : Graph} {endId start : Nat} (hW : 2 * weightSum g < U64) :
    ∀ {s s' : HMap × HMap × List Nat}, Relation.ReflTransGen (Step g endId) s s' →
      Inv g start s.1 s.2.1 s.2.2 →
      (∀ n d d', hmGet s.1 n = some d → hmGet s'.1 n = some d' → d' ≤ d) ∧
      (∀ n, Settled g s.2.2 n → hmGet s'.1 n = hmGet s.1 n) ∧
      (∀ n, n ∈ s'.2.2 → n ∈ s.2.2) := by
  intro s s' h
  induction h with
  | refl =>
    intro _
    refine ⟨?_, fun _ _ => rfl, fun _ => id⟩
    intro n d d' h1 h2
    rw [h1] at h2
    injection h2 with h2
    omega
  | tail h1 h2 ih =>
    rename_i b c
    intro hinv
    obtain ⟨ih1, ih2, ih3⟩ := ih hinv
    have hinvb : Inv g start b.1 b.2.1 b.2.2 := inv_steps hW h1 hinv
    obtain ⟨b1, b2, b3⟩ := b
    obtain ⟨c1, c2, c3⟩ := c
    obtain ⟨hinvc, hstab, hdec, hsub⟩ := inv_step hW hinvb h2
    refine ⟨?_, ?_, fun n hn => ih3 n (hsub n hn)⟩
    · intro n d d' h1' h2'
      obtain ⟨db, hb, hle⟩ := hdec n d' h2'
      exact le_trans hle (ih1 n d db h1' hb)
    · intro n hn
      have hnb : Settled g b3 n := ⟨hn.1, fun hm => hn.2 (ih3 n hm)⟩
      rw [hstab n hnb]
      exact ih2 n hn

/-- A degenerate query (`start = end`, observed through the scan selecting
either `start` itself or a sentinel distance) stops the loop immediately. -/
theorem loopGo_self (g : Graph) (s : Nat) (f : Nat) :
    loopGo g s (f + 1) (initDist g s) [] (initNodes g) =
      .ok (initDist g s) [] (initNodes g) := by
  have hsome : ∀ n ∈ initNodes g, (hmGet (initDist g s) n).isSome := by
    intro n hn
    rw [hmGet_initDist]
    by_cases h : n = s
    · simp [h]
    · rw [if_neg h, if_pos (by simpa [initNodes, nodeIds] using hn)]
      rfl
  cases hscan : minScan (initDist g s) (initNodes g) with
  | none => exact absurd hscan (minScan_ne_none hsome)
  | some r =>
    cases r with
    | none => simp [loopGo, hscan]
    | some cd =>
      obtain ⟨c, d⟩ := cd
      obtain ⟨hmem, hget, hmin⟩ := minScan_some_some hscan
      by_cases hcs : c = s
      · simp [loopGo, hscan, hcs]
      · have hdm : d = MAX := by
          rw [hmGet_initDist, if_neg hcs,
            if_pos (by simpa [initNodes, nodeIds] using hmem)] at hget
          injection hget with hget
          omega
        subst hdm
        simp [loopGo, hscan, hcs, hget]

/-- When the start identifier is not a graph node, every unvisited node
keeps the sentinel distance, so the very first scan already meets a
stopping condition and the loop returns the initial state unchanged. -/
theorem loopGo_absent_start (g : Graph) (s endId : Nat) (hs : s ∉ nodeIds g) (f : Nat) :
    loopGo g endId (f + 1) (initDist g s) [] (initNodes g) =
      .ok (initDist g s) [] (initNodes g) := by
  have hsome : ∀ n ∈ initNodes g, (hmGet (initDist g s) n).isSome := by
    intro n hn
    rw [hmGet_initDist]
    by_cases h : n = s
    · simp [h]
    · rw [if_neg h, if_pos (by simpa [initNodes, nodeIds] using hn)]
      rfl
  cases hscan : minScan (initDist g s) (initNodes g) with
  | none => exact absurd hscan (minScan_ne_none hsome)
  | some r =>
    cases r with
    | none => simp [loopGo, hscan]
    | some cd =>
      obtain ⟨c, d⟩ := cd
      obtain ⟨hmem, hget, hmin⟩ := minScan_some_some hscan
      have hc_ids : c ∈ nodeIds g := by simpa [initNodes, nodeIds] using hmem
      have hcs : c ≠ s := fun h => hs (h ▸ hc_ids)
      have hdm : d = MAX := by
        rw [hmGet_initDist, if_neg hcs, if_pos hc_ids] at hget
        injection hget with hget
        omega
      by_cases hce : c = endId
      · simp [loopGo, hscan, hce]
      · subst hdm
        simp [loopGo, hscan, hce, hget]

/-! ## Sample data used by the witnesses -/

/-- The graph built in `main.rs` (nodes 1–6, eight weighted edges). -/
def sampleGraph : Graph :=
  ⟨[⟨1⟩, ⟨2⟩, ⟨3⟩, ⟨4⟩, ⟨5⟩, ⟨6⟩],
   [⟨1, 2, 1⟩, ⟨1, 3, 3⟩, ⟨2, 3, 1⟩, ⟨3, 4, 2⟩, ⟨2, 4, 5⟩, ⟨4, 5, 1⟩, ⟨5, 6, 1⟩, ⟨1, 6, 10⟩]⟩

/-- The engine state on `sampleGraph` (query 1 → 6) after settling node 1. -/
def sampleSt1 : HMap × HMap × List Nat :=
  ((6, 10) :: (3, 3) :: (2, 1) :: initDist sampleGraph 1,
   [(6, 1), (3, 1), (2, 1)], [2, 3, 4, 5, 6])

/-- The engine state on `sampleGraph` (query 1 → 6) after settling 1 and 2. -/
def sampleSt2 : HMap × HMap × List Nat :=
  ((4, 6) :: (3, 2) :: (6, 10) :: (3, 3) :: (2, 1) :: initDist sampleGraph 1,
   [(4, 2), (3, 2), (6, 1), (3, 1), (2, 1)], [3, 4, 5, 6])

/-- The states the main loop of the query `(g, start, endId)` passes
through. -/
def Reaches (g : Graph) (start endId : Nat) (st : HMap × HMap × List Nat) : Prop :=
  Relation.ReflTransGen (Step g endId) (initDist g start, [], initNodes g) st

/-- A well-formed graph on which the query 1 → 4 overflows: relaxing the
edge `(2, 3)` of weight `usize::MAX - 1` from node 2 (distance 5) wraps
`5 + (MAX - 1)` to 3, and later relaxing it back from node 3 wraps
`3 + (MAX - 1)` to 1, undercutting the settled distance 5 of node 2 and
recording the predecessor cycle `2 ↔ 3`.  (A debug build instead aborts at
the first overflowing sum.) -/
def overflowGraph : Graph :=
  ⟨[⟨1⟩, ⟨2⟩, ⟨3⟩, ⟨4⟩], [⟨1, 2, 5⟩, ⟨2, 3, MAX - 1⟩, ⟨3, 4, 1⟩, ⟨1, 4, 100⟩]⟩

/-- The engine state on `overflowGraph` (query 1 → 4) after settling 1. -/
def ovfSt1 : HMap × HMap × List Nat :=
  ((4, 100) :: (2, 5) :: initDist overflowGraph 1, [(4, 1), (2, 1)], [2, 3, 4])

/-- The engine state on `overflowGraph` (query 1 → 4) after settling 1 and
2: the first wrap has recorded the spurious distance 3 for node 3. -/
def ovfSt2 : HMap × HMap × List Nat :=
  ((3, 3) :: (4, 100) :: (2, 5) :: initDist overflowGraph 1,
   [(3, 2), (4, 1), (2, 1)], [3, 4])

/-- The engine state on `overflowGraph` (query 1 → 4) after settling 1, 2
and 3: the second wrap has lowered the settled node 2's distance from 5 to
1 and closed the predecessor cycle `prev[2] = 3`, `prev[3] = 2`. -/
def ovfSt3 : HMap × HMap × List Nat :=
  ((4, 4) :: (2, 1) :: (3, 3) :: (4, 100) :: (2, 5) :: initDist overflowGraph 1,
   [(4, 3), (2, 3), (3, 2), (4, 1), (2, 1)], [4])

/-! ## The claims -/

/-- C1, counterexample, in two parts.  (a) On the well-formed two-node
graph whose single edge weighs `usize::MAX`, node 2 is reachable from node
1, yet `find_shortest_path` returns the no-path signal (`None`): the finite
distance `MAX` is indistinguishable from the "unreached" sentinel.  (b) On
the well-formed `overflowGraph`, node 4 is reachable from node 1 by the
direct edge of weight 100, yet the query 1 → 4 never returns: the wrapped
relaxation sums build a predecessor cycle and the reconstruction walk loops
forever (a debug build aborts on the first overflowing sum instead).  So
the claim fails as stated at both sentinel-weight and overflowing inputs. -/
theorem claim_C1_counterexample :
    (GraphWF ⟨[⟨1⟩, ⟨2⟩], [⟨1, 2, MAX⟩]⟩ ∧
     Reachable ⟨[⟨1⟩, ⟨2⟩], [⟨1, 2, MAX⟩]⟩ 1 2 ∧
     find_shortest_path ⟨[⟨1⟩, ⟨2⟩], [⟨1, 2, MAX⟩]⟩ 1 2 = .ok none) ∧
    (GraphWF overflowGraph ∧ Reachable overflowGraph 1 4 ∧
     find_shortest_path overflowGraph 1 4 = .diverge) :=
  ⟨⟨by decide,
    ⟨MAX, [1, 2],
      WalkCost.cons 1 2 [] 0 ⟨1, 2, MAX⟩ (by decide) (Or.inl ⟨rfl, rfl⟩)
        (WalkCost.single 2), rfl, rfl⟩,
    by decide⟩,
   ⟨by decide,
    ⟨100, [1, 4],
      WalkCost.cons 1 4 [] 0 ⟨1, 4, 100⟩ (by decide) (Or.inl ⟨rfl, rfl⟩)
        (WalkCost.single 4), rfl, rfl⟩,
    by decide⟩⟩

/-- C1 (amended): for every graph satisfying the data-model invariant
(edge endpoints listed among the nodes) on which no relaxation sum can
overflow (twice the total edge weight fits below `2 ^ 64`), and every
`(start, end)` pair joined by some path of total weight strictly below the
sentinel `usize::MAX`, `find_shortest_path` returns `Some(path)` whose
total edge weight is the minimum total weight over all paths from `start`
to `end`. -/
theorem claim_C1_theorem (g : Graph) (start endId : Nat) (hwf : GraphWF g)
    (hW : 2 * weightSum g < U64)
    (hreach : ∃ w, w < MAX ∧ WalkW g start endId w) :
    ∃ p d, find_shortest_path g start endId = .ok (some p) ∧
      IsLeast (walkSet g start endId) d ∧ WalkCost g p d ∧
      p.head? = some start ∧ p.getLast? = some endId := by
  obtain ⟨w0, hw0, hwalk0⟩ := hreach
  obtain ⟨d, hdmem, hdmin⟩ := (Nat.lt_wfRel.wf).has_min (walkSet g start endId) ⟨w0, hwalk0⟩
  have hdleast : IsLeast (walkSet g start endId) d :=
    ⟨hdmem, fun x hx => le_of_not_lt (hdmin x hx)⟩
  have hdMAX : d < MAX := lt_of_le_of_lt (hdleast.2 hwalk0) hw0
  rcases loop_final g start endId with hpanic | ⟨dist, prev, nodesF, hres, hrtg, hexit, hend⟩
  · exact absurd hpanic (loopGo_ne_panic hwf _ _ _ _ (linv_init g start))
  · have hinv : Inv g start dist prev nodesF := inv_steps hW hrtg (inv_init g start)
    have hdE : hmGet dist endId = some d := exit_end_least hwf hinv hexit hend hdleast hdMAX
    rcases find_eq_of_loop_ok hres hinv with ⟨hpe, heq⟩ |
      ⟨c, dn, l, hpe, hdn, hlt, heq, hwc, hhd, hlast⟩
    · by_cases hes : endId = start
      · refine ⟨[endId], d, ?_, hdleast, ?_, ?_, rfl⟩
        · rw [heq, if_pos hes]
        · have h0 : d = 0 := by
            rw [hes, hinv.dstart] at hdE
            injection hdE with h
            omega
          rw [h0]
          exact WalkCost.single endId
        · simp [hes]
      · have := hinv.fin_prev endId d hes hdE hdMAX
        rw [hpe] at this
        simp at this
    · have hdd : dn = d := by
        rw [hdE] at hdn
        injection hdn with h
        omega
      subst hdd
      exact ⟨(endId :: l).reverse, dn, heq, hdleast, hwc, hhd, hlast⟩

/-- C1, witness: the `main.rs` sample graph has total edge weight 24, far
below the overflow bound, and the query 1 → 6 has a path of weight 10
below the sentinel, so the amended claim applies. -/
theorem claim_C1_witness :
    ∃ p d, find_shortest_path sampleGraph 1 6 = .ok (some p) ∧
      IsLeast (walkSet sampleGraph 1 6) d ∧ WalkCost sampleGraph p d ∧
      p.head? = some 1 ∧ p.getLast? = some 6 :=
  claim_C1_theorem sampleGraph 1 6 (by decide) (by decide)
    ⟨10, by decide, [1, 6],
      WalkCost.cons 1 6 [] 0 ⟨1, 6, 10⟩ (by decide) (Or.inl ⟨rfl, rfl⟩)
        (WalkCost.single 6), rfl, rfl⟩

/-- C2: whenever `find_shortest_path` returns `Some(path)`, consecutive
elements of the path are joined by edges of the graph, the first element is
`start` and the last is `end`.  Holds in every build: predecessor entries
record real edges whatever values the (possibly wrapped) sums take. -/
theorem claim_C2_theorem (g : Graph) (start endId : Nat) (p : List Nat)
    (h : find_shortest_path g start endId = .ok (some p)) :
    p.head? = some start ∧ p.getLast? = some endId ∧ List.Chain' (hasEdge g) p := by
  rcases loop_final g start endId with hpanic | ⟨dist, prev, nodesF, hres, hrtg, hexit, hend⟩
  · rw [find_shortest_path, hpanic] at h
    exact absurd h (by simp)
  · have hlinv : LInv g start dist prev nodesF := linv_steps hrtg (linv_init g start)
    cases hbp : buildPath (g.nodes.length + 2) prev endId [] with
    | none =>
      have heq : find_shortest_path g start endId = .diverge := by
        simp [find_shortest_path, hres, hbp]
      rw [heq] at h
      exact absurd h (by simp)
    | some revPath =>
      obtain ⟨l, hout, hchain⟩ := buildPath_chain _ prev endId [] revPath hbp
      rw [List.nil_append] at hout
      subst hout
      cases hrev : (endId :: l).reverse with
      | nil => exact absurd hrev (by simp)
      | cons h0 t =>
        by_cases hh0 : h0 = start
        · have heq : find_shortest_path g start endId = .ok (some (h0 :: t)) := by
            simp [find_shortest_path, hres, hbp, hrev, hh0]
          rw [heq] at h
          simp only [RunResult.ok.injEq, Option.some.injEq] at h
          subst h
          refine ⟨by simp [hh0], ?_, ?_⟩
          · rw [← hrev, List.getLast?_reverse]
            rfl
          · rw [← hrev, List.chain'_reverse]
            refine List.Chain'.imp ?_ hchain
            intro a b hab
            obtain ⟨_, _, _, e, he, hj⟩ := hlinv.prev_ok a b hab
            exact ⟨e, he, hj⟩
        · have heq : find_shortest_path g start endId = .ok none := by
            simp [find_shortest_path, hres, hbp, hrev, hh0]
          rw [heq] at h
          exact absurd h (by simp)

/-- C2, witness: the path returned for the sample query 1 → 6. -/
theorem claim_C2_witness :
    [1, 2, 3, 4, 5, 6].head? = some 1 ∧ [1, 2, 3, 4, 5, 6].getLast? = some 6 ∧
      List.Chain' (hasEdge sampleGraph) [1, 2, 3, 4, 5, 6] :=
  claim_C2_theorem sampleGraph 1 6 [1, 2, 3, 4, 5, 6] (by decide)

/-- C3, counterexample: querying `start = end = 5` on the empty graph (5 is
not a node) returns `Some([5])` — a non-empty path — rather than `None`,
so the claim fails as stated. -/
theorem claim_C3_counterexample :
    5 ∉ nodeIds (⟨[], []⟩ : Graph) ∧
      find_shortest_path ⟨[], []⟩ 5 5 = .ok (some [5]) :=
  ⟨by decide, by decide⟩

/-- C3 (amended): on a graph satisfying the data-model invariant, if
`start` or `end` is not among the node identifiers and `start ≠ end`,
`find_shortest_path` returns `None`, exactly as for an unreachable
destination; in the degenerate case `start = end` the `[start]` fast path
answers without consulting the node list. -/
theorem claim_C3_theorem (g : Graph) (s e : Nat) (hwf : GraphWF g)
    (habs : s ∉ nodeIds g ∨ e ∉ nodeIds g) (hne : s ≠ e) :
    find_shortest_path g s e = .ok none := by
  by_cases hs : s ∈ nodeIds g
  · have he : e ∉ nodeIds g := by
      rcases habs with h | h
      · exact absurd hs h
      · exact h
    rcases loop_final g s e with hpanic | ⟨dist, prev, nodesF, hres, hrtg, hexit, hend⟩
    · exact absurd hpanic (loopGo_ne_panic hwf _ _ _ _ (linv_init g s))
    · have hlinv : LInv g s dist prev nodesF := linv_steps hrtg (linv_init g s)
      cases hpe : hmGet prev e with
      | some c => exact absurd (hlinv.prev_ok e c hpe).1 he
      | none => rw [find_of_prev_none hres hpe, if_neg (fun h2 => hne h2.symm)]
  · have hloop := loopGo_absent_start g s e hs (initNodes g).length
    have hpe : hmGet ([] : HMap) e = none := rfl
    rw [find_of_prev_none hloop hpe, if_neg (fun h2 => hne h2.symm)]

/-- C3, witness: on a one-node well-formed graph, querying the absent start
5 against the present end 1 yields the no-path signal. -/
theorem claim_C3_witness : find_shortest_path ⟨[⟨1⟩], []⟩ 5 1 = .ok none :=
  claim_C3_theorem ⟨[⟨1⟩], []⟩ 5 1 (by decide) (Or.inl (by decide)) (by decide)

/-- C4: for every graph and every identifier `s`, the degenerate query
`find_shortest_path(graph, s, s)` returns the single-element path `[s]`,
of total cost zero. -/
theorem claim_C4_theorem (g : Graph) (s : Nat) :
    find_shortest_path g s s = .ok (some [s]) ∧ WalkCost g [s] 0 := by
  refine ⟨?_, WalkCost.single s⟩
  have hloop := loopGo_self g s (initNodes g).length
  have hbp : buildPath (g.nodes.length + 2) [] s [] = some [s] := by
    simp [buildPath, hmGet]
  simp [find_shortest_path, hloop, hbp]

/-- C5: on a graph satisfying the data-model invariant, a query between
nodes not joined by any path returns the no-path signal. -/
theorem claim_C5_theorem (g : Graph) (s e : Nat) (hwf : GraphWF g)
    (hnr : ¬ Reachable g s e) : find_shortest_path g s e = .ok none := by
  rcases loop_final g s e with hpanic | ⟨dist, prev, nodesF, hres, hrtg, hexit, hend⟩
  · exact absurd hpanic (loopGo_ne_panic hwf _ _ _ _ (linv_init g s))
  · have hlinv : LInv g s dist prev nodesF := linv_steps hrtg (linv_init g s)
    cases hpe : hmGet prev e with
    | some c => exact absurd (hlinv.prev_ok e c hpe).2.2.1 hnr
    | none =>
      by_cases hes : e = s
      · subst hes
        exact absurd ⟨0, walkW_refl g e⟩ hnr
      · rw [find_of_prev_none hres hpe, if_neg hes]

/-- C5, witness: the concrete scenario of the spec — two isolated nodes
`{1, 2}`, empty edge set, query `(1, 2)` returns no-path. -/
theorem claim_C5_witness : find_shortest_path ⟨[⟨1⟩, ⟨2⟩], []⟩ 1 2 = .ok none := by
  refine claim_C5_theorem ⟨[⟨1⟩, ⟨2⟩], []⟩ 1 2 (by decide) ?_
  rintro ⟨w, p, hwc, hh, hl⟩
  cases hwc with
  | single a =>
    simp only [List.head?_cons, Option.some.injEq] at hh
    simp only [List.getLast?_singleton, Option.some.injEq] at hl
    omega
  | cons a b p' w' e he hj hw => simp at he

/-- C6, counterexample: on `overflowGraph` (query 1 → 4) the loop reaches
the state `ovfSt2` in which node 2 is settled with recorded distance 5,
and the very next iteration — settling node 3, whose relaxation sum
`3 + (usize::MAX - 1)` wraps to 1 — overwrites that settled distance with
1.  So a settled node's recorded distance can change: the claim fails as
stated (a debug build aborts at that sum instead). -/
theorem claim_C6_counterexample :
    Reaches overflowGraph 1 4 ovfSt2 ∧
    Step overflowGraph 4 ovfSt2 ovfSt3 ∧
    Settled overflowGraph ovfSt2.2.2 2 ∧
    hmGet ovfSt2.1 2 = some 5 ∧ hmGet ovfSt3.1 2 = some 1 := by
  refine ⟨?_, ?_, ⟨by decide, by decide⟩, by decide, by decide⟩
  · have h1 : Step overflowGraph 4
        (initDist overflowGraph 1, [], initNodes overflowGraph) ovfSt1 :=
      ⟨1, 0, by decide, by decide, by decide, by decide, by decide, by decide⟩
    have h2 : Step overflowGraph 4 ovfSt1 ovfSt2 :=
      ⟨2, 5, by decide, by decide, by decide, by decide, by decide, by decide⟩
    exact Relation.ReflTransGen.head h1 (Relation.ReflTransGen.single h2)
  · exact ⟨3, 3, by decide, by decide, by decide, by decide, by decide, by decide⟩

/-- C6 (amended): on graphs whose relaxation sums cannot overflow (twice
the total edge weight fits below `2 ^ 64`), along every run of the main
loop recorded tentative distances only ever decrease (strictly at each
update), and once a node is settled (removed from the unvisited list) its
recorded distance never changes again for the rest of the run. -/
theorem claim_C6_theorem (g : Graph) (start endId : Nat)
    (st st' : HMap × HMap × List Nat) (hW : 2 * weightSum g < U64)
    (hre : Reaches g start endId st)
    (hsteps : Relation.ReflTransGen (Step g endId) st st') :
    (∀ n d d', hmGet st.1 n = some d → hmGet st'.1 n = some d' → d' ≤ d) ∧
    (∀ st'' n d d', Step g endId st st'' → hmGet st.1 n = some d →
      hmGet st''.1 n = some d' → d' ≠ d → d' < d) ∧
    (∀ n, Settled g st.2.2 n → hmGet st'.1 n = hmGet st.1 n) := by
  have hinv : Inv g start st.1 st.2.1 st.2.2 := inv_steps hW hre (inv_init g start)
  obtain ⟨h1, h2, h3⟩ := steps_decrease hW hsteps hinv
  refine ⟨h1, ?_, h2⟩
  intro st'' n d d' hstep hd hd' hne
  obtain ⟨a1, a2, a3⟩ := st
  obtain ⟨b1, b2, b3⟩ := st''
  obtain ⟨_, _, hdec, _⟩ := inv_step hW hinv hstep
  obtain ⟨db, hb, hle⟩ := hdec n d' hd'
  rw [hd] at hb
  injection hb with hb
  omega

/-- C6, witness: the sample graph's total edge weight 24 is far below the
overflow bound; on its run 1 → 6 the settled node 1 keeps its distance
across the second iteration. -/
theorem claim_C6_witness : hmGet sampleSt2.1 1 = hmGet sampleSt1.1 1 :=
  (claim_C6_theorem sampleGraph 1 6 sampleSt1 sampleSt2 (by decide)
    (Relation.ReflTransGen.single
      ⟨1, 0, by decide, by decide, by decide, by decide, by decide, by decide⟩)
    (Relation.ReflTransGen.single
      ⟨2, 1, by decide, by decide, by decide, by decide, by decide, by decide⟩)).2.2
    1 ⟨by decide, by decide⟩

/-- C7, counterexample: a file whose Edges section references node 2,
absent from the Nodes section, loads successfully — no error is raised, so
the claim that the loader validates edge endpoints fails as stated. -/
theorem claim_C7_counterexample :
    load_from_file ["# Nodes".toList, "1".toList, "# Edges".toList, "1 2 5".toList] =
      .ok ⟨[⟨1⟩], [⟨1, 2, 5⟩]⟩ [] ∧
    2 ∉ nodeIds ⟨[⟨1⟩], [⟨1, 2, 5⟩]⟩ :=
  ⟨by decide, by decide⟩

/-- C7 (amended): `load_from_file` performs no validation of edge endpoints
against the node list: there are well-formed input files whose loaded graph
contains an edge endpoint absent from the node collection, so the
data-model invariant is the input file's responsibility, not established by
the loader. -/
theorem claim_C7_theorem :
    ∃ lines g sp, load_from_file lines = .ok g sp ∧ ¬ GraphWF g :=
  ⟨["# Nodes".toList, "1".toList, "# Edges".toList, "1 2 5".toList],
   ⟨[⟨1⟩], [⟨1, 2, 5⟩]⟩, [], by decide, by decide⟩

/-- C8: the claim is right and the code is wrong — an unparsable integer in
the `ShortestPath` section makes `load_from_file` panic (the `.unwrap()` on
the parse result) instead of returning the documented typed
invalid-data failure, as this evaluation of the model shows. -/
theorem claim_C8_theorem :
    load_from_file ["# ShortestPath".toList, "x".toList] = .panic := by decide

/-- C9: on every graph satisfying the data-model invariant every distance
lookup of `find_shortest_path` succeeds — the panic outcome, which models
exactly a `HashMap` lookup on a missing key (`unwrap`/indexing), is
unreachable, whatever values the relaxation sums take; and the
precondition is needed — with an edge endpoint absent from the node
collection, `distances[&neighbor]` panics. -/
theorem claim_C9_theorem :
    (∀ g s e, GraphWF g → find_shortest_path g s e ≠ .panic) ∧
      find_shortest_path ⟨[⟨1⟩], [⟨1, 2, 1⟩]⟩ 1 2 = .panic := by
  refine ⟨?_, by decide⟩
  intro g s e hwf
  cases hres : loopGo g e ((initNodes g).length + 1) (initDist g s) [] (initNodes g) with
  | panic => exact absurd hres (loopGo_ne_panic hwf _ _ _ _ (linv_init g s))
  | fuelOut => exact absurd hres (loopGo_ne_fuelOut _ _ _ _ (by omega))
  | ok dist prev nodesF =>
    cases hbp : buildPath (g.nodes.length + 2) prev e [] with
    | none => simp [find_shortest_path, hres, hbp]
    | some revPath =>
      cases hrev : revPath.reverse with
      | nil => simp [find_shortest_path, hres, hbp, hrev]
      | cons h0 t =>
        by_cases hh0 : h0 = s
        · simp [find_shortest_path, hres, hbp, hrev, hh0]
        · simp [find_shortest_path, hres, hbp, hrev, hh0]

/-- C9, witness: the sample graph is well-formed, so the lookup-failure
outcome is unreachable on its queries. -/
theorem claim_C9_witness : find_shortest_path sampleGraph 1 6 ≠ .panic :=
  claim_C9_theorem.1 sampleGraph 1 6 (by decide)

/-- C10, counterexample: on the well-formed `overflowGraph` the query
1 → 4 yields the divergence marker — the wrapped relaxation sums record
the predecessor cycle `prev[2] = 3`, `prev[3] = 2`, and the backward walk
of the reconstruction phase never terminates — so the claim that the walk
always terminates and the map stays acyclic fails as stated. -/
theorem claim_C10_counterexample :
    GraphWF overflowGraph ∧ find_shortest_path overflowGraph 1 4 = .diverge ∧
      hmGet ovfSt3.2.1 2 = some 3 ∧ hmGet ovfSt3.2.1 3 = some 2 :=
  ⟨by decide, by decide, by decide, by decide⟩

/-- C10 (amended): on graphs whose relaxation sums cannot overflow (twice
the total edge weight fits below `2 ^ 64`), the backward predecessor walk
of the path-reconstruction phase terminates — the run never yields the
divergence marker that models an endless walk — because the predecessor
map built by the main loop never contains a cycle: every backward chain
reaches a node without a predecessor entry within `|nodes| + 1` lookups. -/
theorem claim_C10_theorem (g : Graph) (s e : Nat) (hW : 2 * weightSum g < U64) :
    find_shortest_path g s e ≠ .diverge ∧
      (∀ dist prev nodesF,
        loopGo g e ((initNodes g).length + 1) (initDist g s) [] (initNodes g) =
          .ok dist prev nodesF →
        ∀ n, RootedIn prev (g.nodes.length + 1) n) := by
  constructor
  · rcases loop_final g s e with hpanic | ⟨dist, prev, nodesF, hres, hrtg, hexit, hend⟩
    · simp [find_shortest_path, hpanic]
    · have hinv : Inv g s dist prev nodesF := inv_steps hW hrtg (inv_init g s)
      rcases find_eq_of_loop_ok hres hinv with ⟨hpe, heq⟩ |
        ⟨c, dn, l, hpe, hdn, hlt, heq, hwc, hhd, hlast⟩
      · rw [heq]
        by_cases hes : e = s
        · simp [hes]
        · simp [hes]
      · rw [heq]
        simp
  · intro dist prev nodesF hres n
    have hinv : Inv g s dist prev nodesF :=
      inv_steps hW (loopGo_ok_steps _ _ _ _ _ _ _ hres).1 (inv_init g s)
    exact (hinv.rooted n).le (by omega)

/-- C10, witness: the sample graph's total edge weight is far below the
overflow bound, and the final predecessor map of its run 1 → 6 is rooted
at the required bound. -/
theorem claim_C10_witness :
    RootedIn [(6, 5), (5, 4), (4, 3), (4, 2), (3, 2), (6, 1), (3, 1), (2, 1)]
      (sampleGraph.nodes.length + 1) 6 :=
  (claim_C10_theorem sampleGraph 1 6 (by decide)).2
    ((6, 6) :: (5, 5) :: (4, 4) :: (4, 6) :: (3, 2) :: (6, 10) :: (3, 3) :: (2, 1) ::
      initDist sampleGraph 1)
    [(6, 5), (5, 4), (4, 3), (4, 2), (3, 2), (6, 1), (3, 1), (2, 1)]
    [6] (by decide) 6

end RustShortedPath
